import Mathlib

/-!
# BusTub lock manager and hash table bucket page

A shallow embedding of `src/include/concurrency/lock_manager.h` and, further
down, of `src/storage/page/hash_table_bucket_page.cpp`.

The lock manager's memory is passed explicitly.  A `Transaction*` is
represented by the id of the transaction it points to (the key under which
`txn_table_` holds the object), and a `LockRequestQueue*` by the record id
under which `lock_table_` holds the queue.  Iterators of the
`std::vector` of requests are positions in a list; a dereference at a
position that is not inside the vector is undefined behaviour and ends the
run with `Outcome.undefined`.
-/

namespace bustub

/-- Modelled from the spec: `common/config.h` is not part of the sources;
transaction ids are totally ordered integers, a lower id is an older
transaction. -/
abbrev txn_id_t := Int

/-- Modelled from the spec: the "none" marker of `upgrading_`, declared in
the missing `common/config.h`. -/
def INVALID_TXN_ID : txn_id_t := -1

/-- Modelled from the spec: `common/rid.h` is not part of the sources; a
record id is an opaque key of the lock table. -/
abbrev RID := Nat

/-- Modelled from the spec: the lifecycle states of `concurrency/transaction.h`. -/
inductive TransactionState where
  | GROWING
  | SHRINKING
  | COMMITTED
  | ABORTED
  deriving DecidableEq, Repr

/-- Modelled from the spec: the abort reasons of `concurrency/transaction.h`
that the lock manager signals. -/
inductive AbortReason where
  | LOCK_ON_SHRINKING
  | UPGRADE_CONFLICT
  | DEADLOCK
  deriving DecidableEq, Repr

/-- Modelled from the spec: `TransactionAbortException(txn_id, reason)`. -/
structure TransactionAbortException where
  txn_id_ : txn_id_t
  abort_reason_ : AbortReason
  deriving DecidableEq, Repr

/-- Modelled from the spec: the lock-relevant projection of `Transaction`
(state, records held shared, records held exclusive).  Its id is the key of
`txn_table_`. -/
structure Transaction where
  state_ : TransactionState
  shared_lock_set_ : List RID
  exclusive_lock_set_ : List RID
  deriving DecidableEq, Repr

/-- The lock modes, `enum class LockMode { SHARED, EXCLUSIVE }`. -/
inductive LockMode where
  | SHARED
  | EXCLUSIVE
  deriving DecidableEq, Repr

/-- The `class LockRequest`: transaction id, mode, granted flag. -/
structure LockRequest where
  txn_id_ : txn_id_t
  lock_mode_ : LockMode
  granted_ : Bool
  deriving DecidableEq, Repr

/-- The `class LockRequestQueue`: the vector of requests and the id of an
upgrading transaction.  The condition variable carries no data. -/
structure LockRequestQueue where
  request_queue_ : List LockRequest
  upgrading_ : txn_id_t
  deriving DecidableEq, Repr

/-- The memory a `LockManager` method works on: `lock_table_` and the
transaction objects reached through `txn_table_`. -/
structure LockManager where
  lock_table_ : RID → LockRequestQueue
  txn_table_ : txn_id_t → Transaction

/-- How a call ends: it returns a value, it throws, or it runs into
undefined behaviour (an access outside a vector). -/
inductive Outcome (α : Type) where
  | returned (a : α)
  | thrown (e : TransactionAbortException)
  | undefined
  deriving DecidableEq, Repr

/-- The call `txn->GetState()`. -/
def LockManager.GetState (lm : LockManager) (txn : txn_id_t) : TransactionState :=
  (lm.txn_table_ txn).state_

/-- The call `txn->SetState(s)`: only the state field of that one transaction changes. -/
def LockManager.SetState (lm : LockManager) (txn : txn_id_t) (s : TransactionState) :
    LockManager :=
  { lm with
    txn_table_ := fun k =>
      if k = txn then { lm.txn_table_ k with state_ := s } else lm.txn_table_ k }

/-- Store a request vector back into the queue of record `lq`. -/
def LockManager.setRequests (lm : LockManager) (lq : RID) (q : List LockRequest) :
    LockManager :=
  { lm with
    lock_table_ := fun r =>
      if r = lq then { lm.lock_table_ r with request_queue_ := q } else lm.lock_table_ r }

/-- The method `LockManager::ValidateTxnBeforeLock` (lock_manager.h:118-128). -/
def ValidateTxnBeforeLock (lm : LockManager) (txn : txn_id_t) : Outcome Bool × LockManager :=
  let tstate := lm.GetState txn
  if tstate = TransactionState.ABORTED then
    (Outcome.returned false, lm)
  else if tstate = TransactionState.SHRINKING then
    (Outcome.thrown ⟨txn, AbortReason.LOCK_ON_SHRINKING⟩,
      lm.SetState txn TransactionState.ABORTED)
  else
    (Outcome.returned true, lm)

/-- The `for` loop of `LockManager::IsItAborted` (lock_manager.h:132-136).
`i` is the position of `iter`, `q` the vector.  The loop ends when `iter`
equals `end()`; `erase(iter)` shifts the later requests down and the loop
then still does `++iter`.  `none` is a dereference of `iter` past `end()`. -/
def IsItAborted.loop (tid : txn_id_t) (i : Nat) (q : List LockRequest) :
    Option (List LockRequest) :=
  if i = q.length then some q
  else if h : i < q.length then
    if (q.get ⟨i, h⟩).txn_id_ = tid then IsItAborted.loop tid (i + 1) (q.eraseIdx i)
    else IsItAborted.loop tid (i + 1) q
  else none
termination_by q.length - i
decreasing_by
  all_goals simp_wf
  · rw [List.length_eraseIdx]
    simp [h]
    omega
  · omega

/-- The method `LockManager::IsItAborted` (lock_manager.h:129-140). -/
def IsItAborted (lm : LockManager) (txn : txn_id_t) (lq : RID) : Outcome Unit × LockManager :=
  let tid := txn
  if lm.GetState txn = TransactionState.ABORTED then
    match IsItAborted.loop tid 0 (lm.lock_table_ lq).request_queue_ with
    | some q => (Outcome.thrown ⟨txn, AbortReason.DEADLOCK⟩, lm.setRequests lq q)
    | none => (Outcome.undefined, lm)
  else
    (Outcome.returned (), lm)

/-! ## The acquisition, upgrade and release protocol

`lock_manager.cpp` is not part of the sources: `LockShared`,
`LockExclusive`, `LockUpgrade` and `Unlock` are only declared in
`lock_manager.h`.  They are modelled from sections 4.1 to 4.4 of the
specification.  Every critical section under the lock-table mutex is one
atomic step: the start of a call up to its return or its first wait, and
every wake-up of a waiting call up to its return or next wait. -/

/-- How a step of a locking call ends: the lock is granted (the call returns
true), the call returns false, it throws, or it waits on the queue's
condition variable. -/
inductive LockResult where
  | granted
  | refused
  | thrown (e : TransactionAbortException)
  | waiting
  deriving DecidableEq, Repr

/-- Modelled from the spec: lock compatibility of the missing
`lock_manager.cpp`; SHARED with SHARED is compatible, any pair involving
EXCLUSIVE is not. -/
def Conflicts (held requested : LockMode) : Bool :=
  match held, requested with
  | LockMode.SHARED, LockMode.SHARED => false
  | _, _ => true

/-- Modelled from the spec: a request of the queue that is currently granted
and conflicts with the requested mode (missing `lock_manager.cpp`). -/
def ConflictingHolder (mode : LockMode) (e : LockRequest) : Bool :=
  e.granted_ && Conflicts e.lock_mode_ mode

/-- Modelled from the spec: a conflicting granted holder whose id is greater
than the requesting id (younger) is wounded (missing `lock_manager.cpp`). -/
def Wounded (tid : txn_id_t) (mode : LockMode) (e : LockRequest) : Bool :=
  ConflictingHolder mode e && decide (tid < e.txn_id_)

/-- Modelled from the spec: what wounding does to the holder's transaction
object in the missing `lock_manager.cpp`: state ABORTED, the record cleared
from its lock sets. -/
def Transaction.wound (t : Transaction) (rid : RID) : Transaction :=
  { state_ := TransactionState.ABORTED
    shared_lock_set_ := t.shared_lock_set_.filter (fun r => r ≠ rid)
    exclusive_lock_set_ := t.exclusive_lock_set_.filter (fun r => r ≠ rid) }

/-- Modelled from the spec: recording a granted record in the lock set of
the mode (missing `lock_manager.cpp`); a granted upgrade moves the record
from the shared set to the exclusive set. -/
def Transaction.recordLock (t : Transaction) (rid : RID) (mode : LockMode)
    (upgrade : Bool) : Transaction :=
  match mode with
  | LockMode.SHARED => { t with shared_lock_set_ := rid :: t.shared_lock_set_ }
  | LockMode.EXCLUSIVE =>
    { t with
      shared_lock_set_ :=
        if upgrade then t.shared_lock_set_.filter (fun r => r ≠ rid) else t.shared_lock_set_
      exclusive_lock_set_ := rid :: t.exclusive_lock_set_ }

/-- Modelled from the spec: appending a new request to the record's queue
(step 1 of section 4.1, missing `lock_manager.cpp`). -/
def LockManager.enqueue (lm : LockManager) (rid : RID) (e : LockRequest) : LockManager :=
  lm.setRequests rid ((lm.lock_table_ rid).request_queue_ ++ [e])

/-- Modelled from the spec: the queue after the wound-wait pass of the
missing `lock_manager.cpp`: the requests of the wounded holders are removed. -/
def woundQueue (tid : txn_id_t) (mode : LockMode) (q : List LockRequest) : List LockRequest :=
  q.filter (fun e => !Wounded tid mode e)

/-- Modelled from the spec: marking the requester's own request as granted
(missing `lock_manager.cpp`). -/
def grantQueue (tid : txn_id_t) (q : List LockRequest) : List LockRequest :=
  q.map (fun e => if e.txn_id_ = tid then { e with granted_ := true } else e)

/-- Modelled from the spec: removing the transaction's own request from a
queue (missing `lock_manager.cpp`). -/
def removeOwn (tid : txn_id_t) (q : List LockRequest) : List LockRequest :=
  q.filter (fun e => decide (e.txn_id_ ≠ tid))

/-- Modelled from the spec: the wound-wait pass of section 4.1 step 2
(missing `lock_manager.cpp`).  Every granted conflicting holder with a
greater id than the requester is marked ABORTED and its request is removed
from the queue; after the pass no wound is possible any more. -/
def WoundWait (lm : LockManager) (tid : txn_id_t) (rid : RID) (mode : LockMode) :
    LockManager :=
  { lock_table_ := fun r =>
      if r = rid then
        { lm.lock_table_ r with
          request_queue_ := woundQueue tid mode (lm.lock_table_ rid).request_queue_ }
      else lm.lock_table_ r
    txn_table_ := fun k =>
      if (lm.lock_table_ rid).request_queue_.any
          (fun e => Wounded tid mode e && decide (e.txn_id_ = k)) then
        (lm.txn_table_ k).wound rid
      else lm.txn_table_ k }

/-- Modelled from the spec: section 4.1 step 3 (missing `lock_manager.cpp`):
the requester's own request is marked granted, the record goes into the lock
set of the mode, and an upgrade marker of the requester is cleared. -/
def Grant (lm : LockManager) (tid : txn_id_t) (rid : RID) (mode : LockMode) : LockManager :=
  { lock_table_ := fun r =>
      if r = rid then
        { request_queue_ := grantQueue tid (lm.lock_table_ rid).request_queue_
          upgrading_ :=
            if (lm.lock_table_ rid).upgrading_ = tid then INVALID_TXN_ID
            else (lm.lock_table_ rid).upgrading_ }
      else lm.lock_table_ r
    txn_table_ := fun k =>
      if k = tid then
        (lm.txn_table_ k).recordLock rid mode (decide ((lm.lock_table_ rid).upgrading_ = tid))
      else lm.txn_table_ k }

/-- Modelled from the spec: section 4.1 steps 2 to 4 (missing
`lock_manager.cpp`): wound, then grant if no conflicting granted request
remains, otherwise wait. -/
def Acquire (lm : LockManager) (tid : txn_id_t) (rid : RID) (mode : LockMode) :
    LockResult × LockManager :=
  let lm1 := WoundWait lm tid rid mode
  if (lm1.lock_table_ rid).request_queue_.all (fun e => !ConflictingHolder mode e) then
    (LockResult.granted, Grant lm1 tid rid mode)
  else
    (LockResult.waiting, lm1)

/-- Modelled from the spec: `LockManager::LockShared` of the missing
`lock_manager.cpp`, section 4.1, up to its return or first wait. -/
def LockShared (lm : LockManager) (txn : txn_id_t) (rid : RID) : LockResult × LockManager :=
  match ValidateTxnBeforeLock lm txn with
  | (Outcome.returned true, lm1) =>
    Acquire (lm1.enqueue rid ⟨txn, LockMode.SHARED, false⟩) txn rid LockMode.SHARED
  | (Outcome.thrown e, lm1) => (LockResult.thrown e, lm1)
  | (_, lm1) => (LockResult.refused, lm1)

/-- Modelled from the spec: `LockManager::LockExclusive` of the missing
`lock_manager.cpp`, section 4.1, up to its return or first wait. -/
def LockExclusive (lm : LockManager) (txn : txn_id_t) (rid : RID) : LockResult × LockManager :=
  match ValidateTxnBeforeLock lm txn with
  | (Outcome.returned true, lm1) =>
    Acquire (lm1.enqueue rid ⟨txn, LockMode.EXCLUSIVE, false⟩) txn rid LockMode.EXCLUSIVE
  | (Outcome.thrown e, lm1) => (LockResult.thrown e, lm1)
  | (_, lm1) => (LockResult.refused, lm1)

/-- Modelled from the spec: the start of an upgrade in the missing
`lock_manager.cpp` (section 4.2): the marker is set to the caller, the
caller's SHARED request is removed and a new EXCLUSIVE request appended. -/
def LockManager.beginUpgrade (lm : LockManager) (txn : txn_id_t) (rid : RID) : LockManager :=
  { lm with
    lock_table_ := fun r =>
      if r = rid then
        { request_queue_ :=
            removeOwn txn (lm.lock_table_ rid).request_queue_ ++
              [⟨txn, LockMode.EXCLUSIVE, false⟩]
          upgrading_ := txn }
      else lm.lock_table_ r }

/-- Modelled from the spec: `LockManager::LockUpgrade` of the missing
`lock_manager.cpp`, section 4.2, up to its return or first wait.  When
another transaction is marked upgrading on the queue the caller is aborted. -/
def LockUpgrade (lm : LockManager) (txn : txn_id_t) (rid : RID) : LockResult × LockManager :=
  match ValidateTxnBeforeLock lm txn with
  | (Outcome.returned true, lm1) =>
    if (lm1.lock_table_ rid).upgrading_ ≠ INVALID_TXN_ID ∧
        (lm1.lock_table_ rid).upgrading_ ≠ txn then
      (LockResult.thrown ⟨txn, AbortReason.UPGRADE_CONFLICT⟩,
        lm1.SetState txn TransactionState.ABORTED)
    else
      Acquire (lm1.beginUpgrade txn rid) txn rid LockMode.EXCLUSIVE
  | (Outcome.thrown e, lm1) => (LockResult.thrown e, lm1)
  | (_, lm1) => (LockResult.refused, lm1)

/-- Modelled from the spec: a wake-up of a call of mode `mode` that waits on
the queue (section 4.1 step 4, missing `lock_manager.cpp`): a caller found
ABORTED removes its own request and raises the deadlock abort, any other
caller runs the wound-wait pass again. -/
def WakeUp (lm : LockManager) (txn : txn_id_t) (rid : RID) (mode : LockMode) :
    LockResult × LockManager :=
  if lm.GetState txn = TransactionState.ABORTED then
    (LockResult.thrown ⟨txn, AbortReason.DEADLOCK⟩,
      lm.setRequests rid (removeOwn txn (lm.lock_table_ rid).request_queue_))
  else
    Acquire lm txn rid mode

/-- Modelled from the spec: the transaction holds a lock on the record, that
is, the queue has a granted request of it (missing `lock_manager.cpp`). -/
def LockManager.holds (lm : LockManager) (txn : txn_id_t) (rid : RID) : Bool :=
  (lm.lock_table_ rid).request_queue_.any (fun e => decide (e.txn_id_ = txn) && e.granted_)

/-- Modelled from the spec: `LockManager::Unlock` of the missing
`lock_manager.cpp`, section 4.3.  For a transaction that holds a lock on the
record: GROWING becomes SHRINKING and any other state stays, the request
leaves the queue, the record leaves the lock sets, the call returns true.
For a transaction that holds none the call fails and changes nothing. -/
def Unlock (lm : LockManager) (txn : txn_id_t) (rid : RID) : Bool × LockManager :=
  if lm.holds txn rid then
    (true,
      { lock_table_ := fun r =>
          if r = rid then
            { lm.lock_table_ r with
              request_queue_ := removeOwn txn (lm.lock_table_ rid).request_queue_ }
          else lm.lock_table_ r
        txn_table_ := fun k =>
          if k = txn then
            { state_ :=
                if (lm.txn_table_ k).state_ = TransactionState.GROWING then
                  TransactionState.SHRINKING
                else (lm.txn_table_ k).state_
              shared_lock_set_ := (lm.txn_table_ k).shared_lock_set_.filter (fun r => r ≠ rid)
              exclusive_lock_set_ :=
                (lm.txn_table_ k).exclusive_lock_set_.filter (fun r => r ≠ rid) }
          else lm.txn_table_ k })
  else
    (false, lm)

/-- The steps of the lock manager: the start of a locking call, a wake-up of
a waiting call of the given mode, and a release. -/
inductive Call where
  | lockShared (txn : txn_id_t) (rid : RID)
  | lockExclusive (txn : txn_id_t) (rid : RID)
  | lockUpgrade (txn : txn_id_t) (rid : RID)
  | wakeUp (txn : txn_id_t) (rid : RID) (mode : LockMode)
  | unlock (txn : txn_id_t) (rid : RID)
  deriving DecidableEq, Repr

/-- The memory after one step. -/
def Call.run (lm : LockManager) : Call → LockManager
  | Call.lockShared txn rid => (LockShared lm txn rid).2
  | Call.lockExclusive txn rid => (LockExclusive lm txn rid).2
  | Call.lockUpgrade txn rid => (LockUpgrade lm txn rid).2
  | Call.wakeUp txn rid mode => (WakeUp lm txn rid mode).2
  | Call.unlock txn rid => (Unlock lm txn rid).2

/-- The steps with defined behaviour.  Locking a record on which the
transaction already has a request is undefined behaviour ([LOCK_NOTE] 3), and
only a call whose request waits in the queue can wake up. -/
def Call.defined (lm : LockManager) : Call → Prop
  | Call.lockShared txn rid => ∀ e ∈ (lm.lock_table_ rid).request_queue_, e.txn_id_ ≠ txn
  | Call.lockExclusive txn rid => ∀ e ∈ (lm.lock_table_ rid).request_queue_, e.txn_id_ ≠ txn
  | Call.lockUpgrade _ _ => True
  | Call.wakeUp txn rid mode => ⟨txn, mode, false⟩ ∈ (lm.lock_table_ rid).request_queue_
  | Call.unlock _ _ => True

instance (lm : LockManager) (c : Call) : Decidable (c.defined lm) := by
  cases c <;> unfold Call.defined <;> infer_instance

/-- The memory after a sequence of steps. -/
def runCalls (lm : LockManager) : List Call → LockManager
  | [] => lm
  | c :: cs => runCalls (c.run lm) cs

/-- Every step of the sequence has defined behaviour in the memory it starts
in. -/
def CallsDefined (lm : LockManager) : List Call → Prop
  | [] => True
  | c :: cs => c.defined lm ∧ CallsDefined (c.run lm) cs

instance decCallsDefined : (lm : LockManager) → (cs : List Call) → Decidable (CallsDefined lm cs)
  | _, [] => isTrue trivial
  | lm, c :: cs =>
    have := decCallsDefined (c.run lm) cs
    (inferInstance : Decidable (c.defined lm ∧ CallsDefined (c.run lm) cs))

/-- The lock table before any request: every queue is empty and no upgrade
is marked.  The transaction objects are arbitrary. -/
def LockManager.initial (txns : txn_id_t → Transaction) : LockManager :=
  { lock_table_ := fun _ => ⟨[], INVALID_TXN_ID⟩, txn_table_ := txns }

/-- Memories reachable through LockShared, LockExclusive, LockUpgrade and
Unlock from an empty lock table by steps with defined behaviour. -/
def Reachable (lm : LockManager) : Prop :=
  ∃ txns calls, CallsDefined (LockManager.initial txns) calls ∧
    runCalls (LockManager.initial txns) calls = lm

/-- At most one request per transaction in a request vector. -/
def OnePerTxn (q : List LockRequest) : Prop :=
  (q.map (fun e => e.txn_id_)).Nodup

instance (q : List LockRequest) : Decidable (OnePerTxn q) := by
  unfold OnePerTxn; infer_instance

/-- Mutual exclusion on one queue: either every granted request is SHARED,
or at most one request is granted at all. -/
def QueueCompatible (q : List LockRequest) : Prop :=
  (∀ e ∈ q, e.granted_ = true → e.lock_mode_ = LockMode.SHARED) ∨
    q.countP (fun e => e.granted_) ≤ 1

/-- The invariant of a request queue. -/
def QueueInv (q : List LockRequest) : Prop :=
  OnePerTxn q ∧ QueueCompatible q

/-- The queue that `Acquire` leaves for the record. -/
def acquireQueue (tid : txn_id_t) (mode : LockMode) (q : List LockRequest) :
    List LockRequest :=
  if (woundQueue tid mode q).all (fun e => !ConflictingHolder mode e) then
    grantQueue tid (woundQueue tid mode q)
  else woundQueue tid mode q

/-- The invariant of the lock table: every queue satisfies `QueueInv`. -/
def LockManager.Inv (lm : LockManager) : Prop :=
  ∀ r, QueueInv (lm.lock_table_ r).request_queue_

/-- How a step may change the state of a transaction: not at all, to
ABORTED, or from GROWING to SHRINKING. -/
def StateAdvance (s s2 : TransactionState) : Prop :=
  s2 = s ∨ s2 = TransactionState.ABORTED ∨
    (s = TransactionState.GROWING ∧ s2 = TransactionState.SHRINKING)

/-- The transaction has left its growing phase through the lock manager. -/
def Shrunk (s : TransactionState) : Prop :=
  s = TransactionState.SHRINKING ∨ s = TransactionState.ABORTED

/-- The wound-wait direction of one step `res` of a request of mode `mode`
by transaction `B` on record `rid`, started in memory `lm`: no transaction
older than `B` is touched; every granted conflicting holder younger than `B`
is ABORTED afterwards and its request is gone from the queue; and if a
granted conflicting holder is older than `B` (or `B` itself), `B` waits. -/
def WoundWaitDirection (lm : LockManager) (B : txn_id_t) (rid : RID) (mode : LockMode)
    (res : LockResult × LockManager) : Prop :=
  (∀ A, A < B → res.2.txn_table_ A = lm.txn_table_ A) ∧
  (∀ e ∈ (lm.lock_table_ rid).request_queue_,
    e.granted_ = true → Conflicts e.lock_mode_ mode = true → B < e.txn_id_ →
      res.2.GetState e.txn_id_ = TransactionState.ABORTED ∧
      e ∉ (res.2.lock_table_ rid).request_queue_) ∧
  ((∃ e ∈ (lm.lock_table_ rid).request_queue_,
      e.granted_ = true ∧ Conflicts e.lock_mode_ mode = true ∧ e.txn_id_ ≤ B) →
    res.1 = LockResult.waiting)

/-- The step of a locking call ended without the lock and without a wait:
the call returned false or threw. -/
def LockResult.rejected : LockResult → Bool
  | LockResult.refused => true
  | LockResult.thrown _ => true
  | _ => false

/-! ## Example memories -/

/-- Transactions 1 and 2 are GROWING, 3 is SHRINKING and holds record 7
shared, 4 is ABORTED, every other one is COMMITTED; record 0 has
transaction 1 holding EXCLUSIVE and transaction 4 waiting for SHARED,
record 9 has transaction 4 alone, waiting for EXCLUSIVE. -/
def exampleManager : LockManager :=
  { lock_table_ := fun r =>
      if r = 0 then
        ⟨[⟨1, LockMode.EXCLUSIVE, true⟩, ⟨4, LockMode.SHARED, false⟩], INVALID_TXN_ID⟩
      else if r = 7 then ⟨[⟨3, LockMode.SHARED, true⟩], INVALID_TXN_ID⟩
      else if r = 9 then ⟨[⟨4, LockMode.EXCLUSIVE, false⟩], INVALID_TXN_ID⟩
      else ⟨[], INVALID_TXN_ID⟩
    txn_table_ := fun t =>
      if t = 1 then ⟨TransactionState.GROWING, [], [0]⟩
      else if t = 2 then ⟨TransactionState.GROWING, [], []⟩
      else if t = 3 then ⟨TransactionState.SHRINKING, [7], []⟩
      else if t = 4 then ⟨TransactionState.ABORTED, [], []⟩
      else ⟨TransactionState.COMMITTED, [], []⟩ }

/-- Every transaction is GROWING and holds nothing. -/
def growingTxns : txn_id_t → Transaction :=
  fun _ => ⟨TransactionState.GROWING, [], []⟩

/-- Transaction 1 holds SHARED on record 0. -/
def oneShared : LockManager :=
  (LockShared (LockManager.initial growingTxns) 1 0).2

/-- Transaction 1 holds SHARED on record 0 and transaction 2 waits there for
EXCLUSIVE. -/
def sharedThenExclusive : LockManager :=
  (LockExclusive oneShared 2 0).2

/-- Transaction 2 holds EXCLUSIVE on record 0. -/
def oneExclusive : LockManager :=
  (LockExclusive (LockManager.initial growingTxns) 2 0).2

/-! ## The hash table bucket page

A shallow embedding of `src/storage/page/hash_table_bucket_page.cpp`.

The class declaration (`hash_table_bucket_page.h`) and the macro
`BUCKET_ARRAY_SIZE` (`hash_table_page_defs.h`) are not part of the sources.
The members are taken as the code uses them: two bitmaps `occupied_` and
`readable_` of `char`, `readable_` starting where `occupied_` ends (the loop
of `GetValue` stops when its byte pointer equals `readable_`), followed by
the slots `array_`.  A bitmap byte is a number below 256.  `array_` is the
memory from the first slot on, indexed by slot: the page owns the first
`BUCKET_ARRAY_SIZE` slots, a read of a later slot reads what lies behind the
page.  A run that writes a slot outside the page, indexes a bitmap outside
its bytes, or walks a byte pointer out of the bitmaps is undefined and the
operation yields `none`. -/

/-- The members of a bucket page and the constant `BUCKET_ARRAY_SIZE` of its
instantiation. -/
structure HashTableBucketPage (K V : Type) where
  BUCKET_ARRAY_SIZE : Nat
  occupied_ : List Nat
  readable_ : List Nat
  array_ : Nat → K × V

section BucketPage

variable {K V : Type} [DecidableEq V]

/-- The bit test `(1UL << j) & b` on a bitmap byte, as a truth value. -/
def bitOf (b j : Nat) : Bool :=
  decide ((1 <<< j) &&& b ≠ 0)

/-- The method `HashTableBucketPage::IsOccupied`
(hash_table_bucket_page.cpp:141-144). -/
def IsOccupied (p : HashTableBucketPage K V) (bucket_idx : Nat) : Option Bool :=
  (p.occupied_[bucket_idx >>> 3]?).map (fun b => bitOf b (bucket_idx &&& 7))

/-- The method `HashTableBucketPage::SetOccupied`
(hash_table_bucket_page.cpp:146-149); the byte keeps its low 8 bits. -/
def SetOccupied (p : HashTableBucketPage K V) (bucket_idx : Nat) :
    Option (HashTableBucketPage K V) :=
  match p.occupied_[bucket_idx >>> 3]? with
  | none => none
  | some b =>
    some { p with
      occupied_ := p.occupied_.set (bucket_idx >>> 3) ((b ||| (1 <<< (bucket_idx &&& 7))) % 256) }

/-- The method `HashTableBucketPage::IsReadable`
(hash_table_bucket_page.cpp:151-155). -/
def IsReadable (p : HashTableBucketPage K V) (bucket_idx : Nat) : Option Bool :=
  (p.readable_[bucket_idx >>> 3]?).map (fun b => bitOf b (bucket_idx &&& 7))

/-- The method `HashTableBucketPage::SetReadable`
(hash_table_bucket_page.cpp:157-160); the byte keeps its low 8 bits. -/
def SetReadable (p : HashTableBucketPage K V) (bucket_idx : Nat) :
    Option (HashTableBucketPage K V) :=
  match p.readable_[bucket_idx >>> 3]? with
  | none => none
  | some b =>
    some { p with
      readable_ := p.readable_.set (bucket_idx >>> 3) ((b ||| (1 <<< (bucket_idx &&& 7))) % 256) }

/-- The method `HashTableBucketPage::UnSetReadable`
(hash_table_bucket_page.cpp:208-211): the byte is and-ed with the 64-bit
complement of the bit and keeps its low 8 bits. -/
def UnSetReadable (p : HashTableBucketPage K V) (bucket_idx : Nat) :
    Option (HashTableBucketPage K V) :=
  match p.readable_[bucket_idx >>> 3]? with
  | none => none
  | some b =>
    some { p with
      readable_ :=
        p.readable_.set (bucket_idx >>> 3)
          ((b &&& (2 ^ 64 - 1 - (1 <<< (bucket_idx &&& 7)))) % 256) }

/-- The method `HashTableBucketPage::RemoveAt`
(hash_table_bucket_page.cpp:136-139). -/
def RemoveAt (p : HashTableBucketPage K V) (bucket_idx : Nat) :
    Option (HashTableBucketPage K V) :=
  UnSetReadable p bucket_idx

/-- The inner `for (; i < scope; i++)` loop of `GetValue`
(hash_table_bucket_page.cpp:29-36), `n` iterations from slot `i` on. -/
def GetValue.scan (p : HashTableBucketPage K V) (key : K) (cmp : K → K → Int) :
    Nat → Nat → List V → Option (List V)
  | 0, _, result => some result
  | n + 1, i, result =>
    if cmp key (p.array_ i).1 = 0 then
      match IsReadable p i with
      | none => none
      | some true => GetValue.scan p key cmp n (i + 1) (result ++ [(p.array_ i).2])
      | some false => GetValue.scan p key cmp n (i + 1) result
    else GetValue.scan p key cmp n (i + 1) result

/-- The `while` loop of `GetValue` (hash_table_bucket_page.cpp:28-39).
`bytes` is the memory from the pointer `occupied` on, as far as the bitmaps
reach, `k` the offset of the pointer from `occupied_`; `occupied != readable_`
is `k` differing from the length of `occupied_`. -/
def GetValue.loop (p : HashTableBucketPage K V) (key : K) (cmp : K → K → Int) :
    List Nat → Nat → Nat → Nat → List V → Option (List V)
  | [], _, _, _, _ => none
  | b :: bytes, k, i, scope, result =>
    if b ≠ 0 ∧ k ≠ p.occupied_.length then
      match GetValue.scan p key cmp (scope - i) i result with
      | none => none
      | some r => GetValue.loop p key cmp bytes (k + 1) (i + (scope - i)) (scope + 8) r
    else some result

/-- The method `HashTableBucketPage::GetValue`
(hash_table_bucket_page.cpp:22-45): the returned flag and the vector
`*result` after the call. -/
def GetValue (p : HashTableBucketPage K V) (key : K) (cmp : K → K → Int) (result : List V) :
    Option (Bool × List V) :=
  match GetValue.loop p key cmp (p.occupied_ ++ p.readable_) 0 0 8 result with
  | none => none
  | some r => some (!r.isEmpty, r)

/-- The walk `while (*readable == 255) readable++` of `Insert`
(hash_table_bucket_page.cpp:58-62) over the bytes of `readable_` from offset
`k` on: the offset where it stops and the byte `temp` found there. -/
def Insert.findByte : List Nat → Nat → Option (Nat × Nat)
  | [], _ => none
  | b :: bytes, k => if b = 255 then Insert.findByte bytes (k + 1) else some (k, b)

/-- The loop `for (i = 0; i < 8; i++)` of `Insert` that stops at the first
`i` with `(1UL << i) & (~temp)` not zero (hash_table_bucket_page.cpp:63-67);
on the low 8 bits `~temp` is `255 - temp`. -/
def Insert.findBit (temp : Nat) : Nat → Nat → Nat
  | 0, i => i
  | n + 1, i => if (1 <<< i) &&& (255 - temp) ≠ 0 then i else Insert.findBit temp n (i + 1)

/-- The method `HashTableBucketPage::Insert`
(hash_table_bucket_page.cpp:47-75). -/
def Insert (p : HashTableBucketPage K V) (key : K) (value : V) (cmp : K → K → Int) :
    Option (Bool × HashTableBucketPage K V) :=
  match GetValue p key cmp [] with
  | none => none
  | some (_, res) =>
    if value ∈ res then some (false, p)
    else
      match Insert.findByte p.readable_ 0 with
      | none => none
      | some (k, temp) =>
        let index := k * 8 + Insert.findBit temp 8 0
        if index < p.BUCKET_ARRAY_SIZE then
          let p1 : HashTableBucketPage K V :=
            { p with array_ := fun i => if i = index then (key, value) else p.array_ i }
          match SetReadable p1 index with
          | none => none
          | some p2 =>
            match SetOccupied p2 index with
            | none => none
            | some p3 => some (true, p3)
        else none

/-- The inner `for (; i < j; i++)` loop of `Remove`
(hash_table_bucket_page.cpp:86-104), `n` iterations from slot `i` on:
`some (some q)` is the return of true with the page `q`, `some none` the end
of the loop without a match. -/
def Remove.scan (p : HashTableBucketPage K V) (key : K) (value : V) (cmp : K → K → Int) :
    Nat → Nat → Option (Option (HashTableBucketPage K V))
  | 0, _ => some none
  | n + 1, i =>
    if cmp key (p.array_ i).1 = 0 ∧ (p.array_ i).2 = value then
      match IsReadable p i with
      | none => none
      | some true =>
        match UnSetReadable p i with
        | none => none
        | some q => some (some q)
      | some false => Remove.scan p key value cmp n (i + 1)
    else Remove.scan p key value cmp n (i + 1)

/-- The `while` loop of `Remove` (hash_table_bucket_page.cpp:85-108).
`bytes` is the memory from the pointer `occupied` on, as far as the bitmaps
reach; the loop has no test against `readable_`. -/
def Remove.loop (p : HashTableBucketPage K V) (key : K) (value : V) (cmp : K → K → Int) :
    List Nat → Nat → Nat → Option (Bool × HashTableBucketPage K V)
  | [], _, _ => none
  | b :: bytes, i, j =>
    if b ≠ 0 then
      match Remove.scan p key value cmp (j - i) i with
      | none => none
      | some (some q) => some (true, q)
      | some none => Remove.loop p key value cmp bytes (i + (j - i)) (j + 8)
    else some (false, p)

/-- The method `HashTableBucketPage::Remove`
(hash_table_bucket_page.cpp:77-114). -/
def Remove (p : HashTableBucketPage K V) (key : K) (value : V) (cmp : K → K → Int) :
    Option (Bool × HashTableBucketPage K V) :=
  Remove.loop p key value cmp (p.occupied_ ++ p.readable_) 0 8

/-- The loop of `HashTableBucketPage::IsFull`
(hash_table_bucket_page.cpp:164-169), `n` iterations from slot `i` on. -/
def IsFull.loop (p : HashTableBucketPage K V) : Nat → Nat → Option Bool
  | 0, _ => some true
  | n + 1, i =>
    match IsReadable p i with
    | none => none
    | some false => some false
    | some true => IsFull.loop p n (i + 1)

/-- The method `HashTableBucketPage::IsFull`
(hash_table_bucket_page.cpp:162-170). -/
def IsFull (p : HashTableBucketPage K V) : Option Bool :=
  IsFull.loop p p.BUCKET_ARRAY_SIZE 0

/-- The method `HashTableBucketPage::NumReadable`
(hash_table_bucket_page.cpp:172-175). -/
def NumReadable (_p : HashTableBucketPage K V) : Nat :=
  0

/-- The loop of `HashTableBucketPage::IsEmpty`
(hash_table_bucket_page.cpp:179-184), `n` iterations from slot `i` on. -/
def IsEmpty.loop (p : HashTableBucketPage K V) : Nat → Nat → Option Bool
  | 0, _ => some true
  | n + 1, i =>
    match IsReadable p i with
    | none => none
    | some true => some false
    | some false => IsEmpty.loop p n (i + 1)

/-- The method `HashTableBucketPage::IsEmpty`
(hash_table_bucket_page.cpp:177-185). -/
def IsEmpty (p : HashTableBucketPage K V) : Option Bool :=
  IsEmpty.loop p p.BUCKET_ARRAY_SIZE 0

end BucketPage

/-- Bit `i` of a bitmap, if the bitmap has the byte. -/
def bitAt (bm : List Nat) (i : Nat) : Option Bool :=
  (bm[i / 8]?).map (fun b => bitOf b (i % 8))

/-- The invariant of a bucket page: the bitmaps have the same positive
number of bytes with a bit for every slot, every readable slot is occupied,
the occupied slots are closed downwards and lie inside the page, and no two
readable slots hold the same pair. -/
structure BucketInv {K V : Type} (p : HashTableBucketPage K V) : Prop where
  bitmap_pos : 0 < p.occupied_.length
  readable_len : p.readable_.length = p.occupied_.length
  size_le : p.BUCKET_ARRAY_SIZE ≤ 8 * p.occupied_.length
  occupied_byte : ∀ b ∈ p.occupied_, b < 256
  readable_byte : ∀ b ∈ p.readable_, b < 256
  readable_occupied : ∀ i, IsReadable p i = some true → IsOccupied p i = some true
  occupied_closed : ∀ i, IsOccupied p (i + 1) = some true → IsOccupied p i = some true
  occupied_inside : ∀ i, IsOccupied p i = some true → i < p.BUCKET_ARRAY_SIZE
  no_duplicate : ∀ i j, IsReadable p i = some true → IsReadable p j = some true →
    p.array_ i = p.array_ j → i = j

/-- The value that the scan of `GetValue` takes from slot `i`: the slot is
readable and its key compares equal. -/
def slotHit {K V : Type} (p : HashTableBucketPage K V) (key : K) (cmp : K → K → Int)
    (i : Nat) : Option V :=
  if cmp key (p.array_ i).1 = 0 ∧ IsReadable p i = some true then some (p.array_ i).2 else none

/-- The values stored under keys that compare equal to `key`, in slot
order. -/
def storedValues {K V : Type} (p : HashTableBucketPage K V) (key : K) (cmp : K → K → Int) :
    List V :=
  (List.range p.BUCKET_ARRAY_SIZE).filterMap (slotHit p key cmp)

/-- An operation on a bucket page. -/
inductive BucketOp (K V : Type) where
  | insert (key : K) (value : V)
  | remove (key : K) (value : V)
  | removeAt (bucket_idx : Nat)

/-- The page after an operation, `none` when the operation is undefined. -/
def BucketOp.run {K V : Type} [DecidableEq V] (cmp : K → K → Int)
    (p : HashTableBucketPage K V) : BucketOp K V → Option (HashTableBucketPage K V)
  | BucketOp.insert key value => (Insert p key value cmp).map (fun r => r.2)
  | BucketOp.remove key value => (Remove p key value cmp).map (fun r => r.2)
  | BucketOp.removeAt bucket_idx => RemoveAt p bucket_idx

/-- The page after a sequence of operations, `none` when one of them is
undefined. -/
def runOps {K V : Type} [DecidableEq V] (cmp : K → K → Int) :
    HashTableBucketPage K V → List (BucketOp K V) → Option (HashTableBucketPage K V)
  | p, [] => some p
  | p, op :: ops =>
    match op.run cmp p with
    | none => none
    | some q => runOps cmp q ops

/-- The page of `size` slots with both bitmaps zero; each bitmap has the
least number of bytes with a bit for every slot.  `mem` is the content of
the slot memory (all zero in an all-zero page) and of the memory behind. -/
def zeroPage {K V : Type} (size : Nat) (mem : Nat → K × V) : HashTableBucketPage K V :=
  { BUCKET_ARRAY_SIZE := size
    occupied_ := List.replicate ((size - 1) / 8 + 1) 0
    readable_ := List.replicate ((size - 1) / 8 + 1) 0
    array_ := mem }

/-- Pages reachable from a page with zero bitmaps by Insert, Remove and
RemoveAt; every operation of the sequence has defined behaviour. -/
def BucketReachable {K V : Type} [DecidableEq V] (cmp : K → K → Int)
    (p : HashTableBucketPage K V) : Prop :=
  ∃ (size : Nat) (mem : Nat → K × V) (ops : List (BucketOp K V)),
    runOps cmp (zeroPage size mem) ops = some p

/-! ## Example pages -/

/-- A three-way comparison of integers, zero for equal keys, in the manner
of the comparator of the instantiation `HashTableBucketPage<int, int,
IntComparator>` (its source is not part of the sources). -/
def IntComparator (lhs rhs : Int) : Int :=
  if lhs < rhs then -1 else if rhs < lhs then 1 else 0

/-- Slot memory of zero bytes. -/
def zeroSlots : Nat → Int × Int :=
  fun _ => (0, 0)

/-- The insertions of the pairs (1, 10), (2, 20), ... up to `n`. -/
def insertRange : Nat → List (BucketOp Int Int)
  | 0 => []
  | n + 1 => insertRange n ++ [BucketOp.insert (Int.ofNat (n + 1)) (Int.ofNat (10 * (n + 1)))]

/-- The page of `size` slots after the first `n` insertions of
`insertRange` into the all-zero page. -/
def filledPage (size n : Nat) : HashTableBucketPage Int Int :=
  (runOps IntComparator (zeroPage size zeroSlots) (insertRange n)).getD (zeroPage size zeroSlots)

/-- A queue of three transactions; the request of transaction 3 is the last. -/
def threeRequests : List LockRequest :=
  [⟨1, LockMode.SHARED, true⟩, ⟨2, LockMode.SHARED, true⟩, ⟨3, LockMode.EXCLUSIVE, false⟩]

/-! ## ValidateTxnBeforeLock -/

/-- C1: on a SHRINKING transaction `ValidateTxnBeforeLock` sets the state to
ABORTED and throws `TransactionAbortException(id, LOCK_ON_SHRINKING)`; it
returns no value. -/
theorem ValidateTxnBeforeLock_shrinking (lm : LockManager) (txn : txn_id_t)
    (h : lm.GetState txn = TransactionState.SHRINKING) :
    (ValidateTxnBeforeLock lm txn).1 = Outcome.thrown ⟨txn, AbortReason.LOCK_ON_SHRINKING⟩ ∧
    (ValidateTxnBeforeLock lm txn).2.GetState txn = TransactionState.ABORTED ∧
    ∀ b : Bool, (ValidateTxnBeforeLock lm txn).1 ≠ Outcome.returned b := by
  simp [ValidateTxnBeforeLock, h]
  simp [LockManager.GetState, LockManager.SetState]

theorem ValidateTxnBeforeLock_shrinking_witness :
    exampleManager.GetState 3 = TransactionState.SHRINKING ∧
    (ValidateTxnBeforeLock exampleManager 3).1 = Outcome.thrown ⟨3, AbortReason.LOCK_ON_SHRINKING⟩ ∧
    (ValidateTxnBeforeLock exampleManager 3).2.GetState 3 = TransactionState.ABORTED ∧
    ∀ b : Bool, (ValidateTxnBeforeLock exampleManager 3).1 ≠ Outcome.returned b :=
  ⟨by decide, ValidateTxnBeforeLock_shrinking exampleManager 3 (by decide)⟩

/-- C2: on an ABORTED transaction `ValidateTxnBeforeLock` returns false,
throws nothing, and the state is still ABORTED (the whole memory is
unchanged). -/
theorem ValidateTxnBeforeLock_aborted (lm : LockManager) (txn : txn_id_t)
    (h : lm.GetState txn = TransactionState.ABORTED) :
    (ValidateTxnBeforeLock lm txn).1 = Outcome.returned false ∧
    (ValidateTxnBeforeLock lm txn).2.GetState txn = TransactionState.ABORTED ∧
    (ValidateTxnBeforeLock lm txn).2 = lm := by
  simp [ValidateTxnBeforeLock, h]

theorem ValidateTxnBeforeLock_aborted_witness :
    exampleManager.GetState 4 = TransactionState.ABORTED ∧
    (ValidateTxnBeforeLock exampleManager 4).1 = Outcome.returned false ∧
    (ValidateTxnBeforeLock exampleManager 4).2.GetState 4 = TransactionState.ABORTED ∧
    (ValidateTxnBeforeLock exampleManager 4).2 = exampleManager :=
  ⟨by decide, ValidateTxnBeforeLock_aborted exampleManager 4 (by decide)⟩

/-- C3, as stated, fails: a COMMITTED transaction passes the check, the
call returns true. -/
theorem ValidateTxnBeforeLock_committed_returns_true :
    exampleManager.GetState 5 = TransactionState.COMMITTED ∧
    (ValidateTxnBeforeLock exampleManager 5).1 = Outcome.returned true := by
  constructor <;> decide

/-- C3, amended: `ValidateTxnBeforeLock` returns true exactly when the state
is GROWING or COMMITTED; for SHRINKING and ABORTED it does not return true. -/
theorem ValidateTxnBeforeLock_true_iff (lm : LockManager) (txn : txn_id_t) :
    (ValidateTxnBeforeLock lm txn).1 = Outcome.returned true ↔
      (lm.GetState txn = TransactionState.GROWING ∨
        lm.GetState txn = TransactionState.COMMITTED) := by
  unfold ValidateTxnBeforeLock
  cases hs : lm.GetState txn <;> simp

/-- C6: `ValidateTxnBeforeLock` leaves the lock table, every transaction's
shared-lock set and exclusive-lock set, and every other transaction
unchanged, whatever the state of the transaction. -/
theorem ValidateTxnBeforeLock_frame (lm : LockManager) (txn : txn_id_t) :
    (ValidateTxnBeforeLock lm txn).2.lock_table_ = lm.lock_table_ ∧
    (∀ k, ((ValidateTxnBeforeLock lm txn).2.txn_table_ k).shared_lock_set_ =
        (lm.txn_table_ k).shared_lock_set_) ∧
    (∀ k, ((ValidateTxnBeforeLock lm txn).2.txn_table_ k).exclusive_lock_set_ =
        (lm.txn_table_ k).exclusive_lock_set_) ∧
    (∀ k, k ≠ txn → (ValidateTxnBeforeLock lm txn).2.txn_table_ k = lm.txn_table_ k) := by
  unfold ValidateTxnBeforeLock
  cases hs : lm.GetState txn <;> simp [LockManager.SetState]
  · refine ⟨?_, ?_, ?_⟩ <;> intro k <;> by_cases hk : k = txn <;> simp [hk]

/-- C7: on a GROWING transaction `ValidateTxnBeforeLock` returns true, throws
nothing, and the state stays GROWING (the whole memory is unchanged). -/
theorem ValidateTxnBeforeLock_growing (lm : LockManager) (txn : txn_id_t)
    (h : lm.GetState txn = TransactionState.GROWING) :
    (ValidateTxnBeforeLock lm txn).1 = Outcome.returned true ∧
    (ValidateTxnBeforeLock lm txn).2.GetState txn = TransactionState.GROWING ∧
    (ValidateTxnBeforeLock lm txn).2 = lm := by
  simp [ValidateTxnBeforeLock, h]

theorem ValidateTxnBeforeLock_growing_witness :
    exampleManager.GetState 2 = TransactionState.GROWING ∧
    (ValidateTxnBeforeLock exampleManager 2).1 = Outcome.returned true ∧
    (ValidateTxnBeforeLock exampleManager 2).2.GetState 2 = TransactionState.GROWING ∧
    (ValidateTxnBeforeLock exampleManager 2).2 = exampleManager :=
  ⟨by decide, ValidateTxnBeforeLock_growing exampleManager 2 (by decide)⟩

/-! ## IsItAborted -/

/-- The loop walks over requests of other transactions without touching the
vector. -/
theorem IsItAborted_loop_skip (tid : txn_id_t) (mid : List LockRequest) :
    ∀ (p rest : List LockRequest), (∀ x ∈ mid, x.txn_id_ ≠ tid) →
      IsItAborted.loop tid p.length (p ++ (mid ++ rest)) =
        IsItAborted.loop tid (p.length + mid.length) (p ++ (mid ++ rest)) := by
  induction mid with
  | nil => intro p rest _; simp
  | cons x xs ih =>
    intro p rest hx
    have hlt : p.length < (p ++ (x :: xs ++ rest)).length := by simp
    have hget : (p ++ (x :: xs ++ rest)).get ⟨p.length, hlt⟩ = x := by
      simp [List.getElem_append_right]
    rw [IsItAborted.loop]
    rw [if_neg (by omega), dif_pos hlt, hget, if_neg (hx x (by simp))]
    have h2 : IsItAborted.loop tid (p.length + 1) (p ++ x :: (xs ++ rest)) =
        IsItAborted.loop tid (p.length + 1 + xs.length) (p ++ x :: (xs ++ rest)) := by
      have h3 := ih (p ++ [x]) rest (fun y hy => hx y (by simp [hy]))
      simpa using h3
    show IsItAborted.loop tid (p.length + 1) (p ++ x :: (xs ++ rest)) =
      IsItAborted.loop tid (p.length + (xs.length + 1)) (p ++ x :: (xs ++ rest))
    rw [h2]
    congr 1
    omega

/-- When the scan is past the last request of the transaction it ends at
`end()` with the vector as it is. -/
theorem IsItAborted_loop_absent (tid : txn_id_t) (p rest : List LockRequest)
    (h : ∀ x ∈ rest, x.txn_id_ ≠ tid) :
    IsItAborted.loop tid p.length (p ++ rest) = some (p ++ rest) := by
  have h1 := IsItAborted_loop_skip tid rest p [] h
  simp only [List.append_nil] at h1
  rw [h1, IsItAborted.loop]
  simp

/-- The transaction's own request is followed by at least one other request:
the loop erases it and ends normally (the request right behind it is
stepped over unexamined). -/
theorem IsItAborted_loop_erases (tid : txn_id_t) (pre post : List LockRequest)
    (e y : LockRequest) (he : e.txn_id_ = tid)
    (hpre : ∀ x ∈ pre, x.txn_id_ ≠ tid) (hpost : ∀ x ∈ post, x.txn_id_ ≠ tid) :
    IsItAborted.loop tid 0 (pre ++ e :: y :: post) = some (pre ++ y :: post) := by
  have h1 := IsItAborted_loop_skip tid pre [] (e :: y :: post) hpre
  simp only [List.length_nil, List.nil_append, Nat.zero_add] at h1
  have hlt : pre.length < (pre ++ e :: y :: post).length := by simp
  have hget : (pre ++ e :: y :: post).get ⟨pre.length, hlt⟩ = e := by
    simp [List.getElem_append_right]
  rw [h1, IsItAborted.loop]
  rw [if_neg (by omega), dif_pos hlt, hget, if_pos he]
  have h2 : (pre ++ e :: y :: post).eraseIdx pre.length = (pre ++ [y]) ++ post := by
    rw [List.eraseIdx_append_of_length_le (le_refl _)]
    simp
  have h3 := IsItAborted_loop_absent tid (pre ++ [y]) post hpost
  simp only [List.length_append, List.length_singleton] at h3
  rw [h2, h3]
  simp

/-- The transaction's own request is the last of the vector: after the
erase the loop steps past `end()` and dereferences there. -/
theorem IsItAborted_loop_last (tid : txn_id_t) (pre : List LockRequest) (e : LockRequest)
    (he : e.txn_id_ = tid) (hpre : ∀ x ∈ pre, x.txn_id_ ≠ tid) :
    IsItAborted.loop tid 0 (pre ++ [e]) = none := by
  have h1 := IsItAborted_loop_skip tid pre [] [e] hpre
  simp only [List.length_nil, List.nil_append, Nat.zero_add] at h1
  have hlt : pre.length < (pre ++ [e]).length := by simp
  have hget : (pre ++ [e]).get ⟨pre.length, hlt⟩ = e := by
    simp [List.getElem_append_right]
  rw [h1, IsItAborted.loop]
  rw [if_neg (by omega), dif_pos hlt, hget, if_pos he]
  have h2 : (pre ++ [e]).eraseIdx pre.length = pre := by
    rw [List.eraseIdx_append_of_length_le (le_refl _)]
    simp
  rw [h2, IsItAborted.loop]
  simp

/-- A transaction that is not ABORTED passes `IsItAborted`: the call returns
and the memory (queue and state included) is unchanged. -/
theorem IsItAborted_not_aborted (lm : LockManager) (txn : txn_id_t) (lq : RID)
    (h : lm.GetState txn ≠ TransactionState.ABORTED) :
    IsItAborted lm txn lq = (Outcome.returned (), lm) := by
  simp [IsItAborted, h]

/-- The method `IsItAborted` throws only for an ABORTED transaction, and then the
DEADLOCK abort with the transaction's own id. -/
theorem IsItAborted_thrown (lm : LockManager) (txn : txn_id_t) (lq : RID)
    (e : TransactionAbortException) (h : (IsItAborted lm txn lq).1 = Outcome.thrown e) :
    lm.GetState txn = TransactionState.ABORTED ∧ e = ⟨txn, AbortReason.DEADLOCK⟩ := by
  unfold IsItAborted at h
  by_cases hs : lm.GetState txn = TransactionState.ABORTED
  · refine ⟨hs, ?_⟩
    simp only [hs, if_true] at h
    cases hl : IsItAborted.loop txn 0 (lm.lock_table_ lq).request_queue_ with
    | none => simp [hl] at h
    | some q =>
      simp only [hl] at h
      injection h with h
      exact h.symm
  · simp [hs] at h

/-- An ABORTED transaction whose own request is followed by another request
in the queue (and has no second request there): `IsItAborted` erases the own
request, keeps the others in order, and throws the DEADLOCK abort. -/
theorem IsItAborted_aborted_not_last (lm : LockManager) (txn : txn_id_t) (lq : RID)
    (pre post : List LockRequest) (e y : LockRequest)
    (hs : lm.GetState txn = TransactionState.ABORTED)
    (hq : (lm.lock_table_ lq).request_queue_ = pre ++ e :: y :: post)
    (he : e.txn_id_ = txn) (hpre : ∀ x ∈ pre, x.txn_id_ ≠ txn)
    (hpost : ∀ x ∈ post, x.txn_id_ ≠ txn) :
    IsItAborted lm txn lq =
      (Outcome.thrown ⟨txn, AbortReason.DEADLOCK⟩, lm.setRequests lq (pre ++ y :: post)) := by
  unfold IsItAborted
  simp only [hs, if_true, hq, IsItAborted_loop_erases txn pre post e y he hpre hpost]

/-- An ABORTED transaction whose own request is the last of the queue:
`IsItAborted` is undefined behaviour. -/
theorem IsItAborted_aborted_last (lm : LockManager) (txn : txn_id_t) (lq : RID)
    (pre : List LockRequest) (e : LockRequest)
    (hs : lm.GetState txn = TransactionState.ABORTED)
    (hq : (lm.lock_table_ lq).request_queue_ = pre ++ [e])
    (he : e.txn_id_ = txn) (hpre : ∀ x ∈ pre, x.txn_id_ ≠ txn) :
    IsItAborted lm txn lq = (Outcome.undefined, lm) := by
  unfold IsItAborted
  simp only [hs, if_true, hq, IsItAborted_loop_last txn pre e he hpre]

/-- An ABORTED transaction with no request in the queue: `IsItAborted` leaves
the queue as it is and throws the DEADLOCK abort. -/
theorem IsItAborted_aborted_absent (lm : LockManager) (txn : txn_id_t) (lq : RID)
    (hs : lm.GetState txn = TransactionState.ABORTED)
    (hq : ∀ x ∈ (lm.lock_table_ lq).request_queue_, x.txn_id_ ≠ txn) :
    IsItAborted lm txn lq =
      (Outcome.thrown ⟨txn, AbortReason.DEADLOCK⟩,
        lm.setRequests lq (lm.lock_table_ lq).request_queue_) := by
  have h := IsItAborted_loop_absent txn [] (lm.lock_table_ lq).request_queue_ hq
  simp only [List.length_nil, List.nil_append] at h
  unfold IsItAborted
  simp only [hs, if_true, h]

/-- C4 fails on the code: transaction 4 is ABORTED and its request is the
last of record 0's queue, which holds one request per transaction; the loop
erases the request, advances past `end()` and dereferences there, so the
call is undefined behaviour and no DEADLOCK abort is raised. -/
theorem IsItAborted_own_request_last_undefined :
    exampleManager.GetState 4 = TransactionState.ABORTED ∧
    OnePerTxn (exampleManager.lock_table_ 0).request_queue_ ∧
    (exampleManager.lock_table_ 0).request_queue_ =
      [⟨1, LockMode.EXCLUSIVE, true⟩, ⟨4, LockMode.SHARED, false⟩] ∧
    (IsItAborted exampleManager 4 0).1 = Outcome.undefined := by
  refine ⟨by decide, by decide, by decide, ?_⟩
  simp [IsItAborted, IsItAborted.loop, exampleManager, LockManager.GetState]

/-- C5 fails on the code in the direction "ABORTED, hence the DEADLOCK abort
is raised": transaction 4 is ABORTED and record 9's queue holds only its
request; the call raises nothing, it is undefined behaviour. -/
theorem IsItAborted_aborted_without_raise :
    exampleManager.GetState 4 = TransactionState.ABORTED ∧
    (exampleManager.lock_table_ 9).request_queue_ = [⟨4, LockMode.EXCLUSIVE, false⟩] ∧
    (IsItAborted exampleManager 4 9).1 ≠ Outcome.thrown ⟨4, AbortReason.DEADLOCK⟩ := by
  refine ⟨by decide, by decide, ?_⟩
  simp [IsItAborted, IsItAborted.loop, exampleManager, LockManager.GetState]

/-! ## Invariants of the request queues -/

theorem OnePerTxn_eq_of_id {q : List LockRequest} (h : OnePerTxn q) {a b : LockRequest}
    (ha : a ∈ q) (hb : b ∈ q) (hab : a.txn_id_ = b.txn_id_) : a = b :=
  List.inj_on_of_nodup_map h ha hb hab

theorem OnePerTxn_of_sublist {q q2 : List LockRequest} (hs : q2.Sublist q)
    (h : OnePerTxn q) : OnePerTxn q2 :=
  List.Nodup.sublist (hs.map _) h

theorem OnePerTxn_append_fresh {q : List LockRequest} (h : OnePerTxn q) (e : LockRequest)
    (hf : ∀ x ∈ q, x.txn_id_ ≠ e.txn_id_) : OnePerTxn (q ++ [e]) := by
  unfold OnePerTxn at *
  rw [List.map_append, List.nodup_append]
  refine ⟨h, by simp, ?_⟩
  intro t ht ht2
  simp only [List.map_cons, List.map_nil, List.mem_singleton] at ht2
  obtain ⟨x, hx, hxt⟩ := List.mem_map.mp ht
  exact hf x hx (hxt.trans ht2)

theorem grantQueue_ids (tid : txn_id_t) (q : List LockRequest) :
    (grantQueue tid q).map (fun e => e.txn_id_) = q.map (fun e => e.txn_id_) := by
  unfold grantQueue
  rw [List.map_map]
  apply List.map_congr_left
  intro e _
  by_cases h : e.txn_id_ = tid <;> simp [h]

theorem OnePerTxn_grantQueue {q : List LockRequest} (h : OnePerTxn q) (tid : txn_id_t) :
    OnePerTxn (grantQueue tid q) := by
  unfold OnePerTxn
  rw [grantQueue_ids]
  exact h

theorem OnePerTxn_countP_id_le_one {q : List LockRequest} (h : OnePerTxn q) (tid : txn_id_t) :
    q.countP (fun e => decide (e.txn_id_ = tid)) ≤ 1 := by
  have h1 := List.nodup_iff_count_le_one.mp h tid
  rw [List.count_eq_countP, List.countP_map] at h1
  refine le_trans (le_of_eq ?_) h1
  apply List.countP_congr
  intro x _
  simp

theorem QueueCompatible_of_sublist {q q2 : List LockRequest} (hs : q2.Sublist q)
    (h : QueueCompatible q) : QueueCompatible q2 := by
  rcases h with h | h
  · exact Or.inl (fun e he hg => h e (hs.subset he) hg)
  · exact Or.inr (le_trans (hs.countP_le _) h)

theorem QueueCompatible_append_pending {q : List LockRequest} (h : QueueCompatible q)
    (e : LockRequest) (he : e.granted_ = false) : QueueCompatible (q ++ [e]) := by
  rcases h with h | h
  · left
    intro x hx hg
    rcases List.mem_append.mp hx with hx | hx
    · exact h x hx hg
    · simp only [List.mem_singleton] at hx
      subst hx
      simp [he] at hg
  · right
    rw [List.countP_append]
    simpa [List.countP_cons, he] using h

theorem QueueInv_of_sublist {q q2 : List LockRequest} (hs : q2.Sublist q) (h : QueueInv q) :
    QueueInv q2 :=
  ⟨OnePerTxn_of_sublist hs h.1, QueueCompatible_of_sublist hs h.2⟩

theorem woundQueue_sublist (tid : txn_id_t) (mode : LockMode) (q : List LockRequest) :
    (woundQueue tid mode q).Sublist q :=
  List.filter_sublist q

theorem removeOwn_sublist (tid : txn_id_t) (q : List LockRequest) :
    (removeOwn tid q).Sublist q :=
  List.filter_sublist q

theorem mem_woundQueue_of_pending (tid : txn_id_t) (mode : LockMode) {q : List LockRequest}
    {e : LockRequest} (he : e ∈ q) (hp : e.granted_ = false) : e ∈ woundQueue tid mode q := by
  unfold woundQueue
  rw [List.mem_filter]
  exact ⟨he, by simp [Wounded, ConflictingHolder, hp]⟩

/-- Granting the own request keeps the queue compatible when no conflicting
granted request is left. -/
theorem QueueCompatible_grantQueue {q : List LockRequest} (tid : txn_id_t) (mode : LockMode)
    (h1 : OnePerTxn q) (hown : ⟨tid, mode, false⟩ ∈ q)
    (hfree : ∀ e ∈ q, ConflictingHolder mode e = false) :
    QueueCompatible (grantQueue tid q) := by
  cases mode with
  | SHARED =>
    left
    intro e he hg
    unfold bustub.grantQueue at he
    obtain ⟨x, hx, rfl⟩ := List.mem_map.mp he
    by_cases hid : x.txn_id_ = tid
    · have := OnePerTxn_eq_of_id h1 hx hown hid
      subst this
      simp
    · simp only [hid, if_false] at hg ⊢
      have := hfree x hx
      simp only [ConflictingHolder, hg, Bool.true_and] at this
      cases hm : x.lock_mode_ with
      | SHARED => rfl
      | EXCLUSIVE => simp [hm, Conflicts] at this
  | EXCLUSIVE =>
    right
    unfold bustub.grantQueue
    rw [List.countP_map]
    refine le_trans (le_of_eq ?_) (OnePerTxn_countP_id_le_one h1 tid)
    apply List.countP_congr
    intro x hx
    have := hfree x hx
    by_cases hid : x.txn_id_ = tid
    · simp [hid]
    · simp only [Function.comp, hid, if_false, decide_False]
      simp only [ConflictingHolder] at this
      cases hg : x.granted_ with
      | false => simp
      | true =>
        rw [hg] at this
        cases hm : x.lock_mode_ <;> simp [hm, Conflicts] at this

theorem QueueInv_acquireQueue {q : List LockRequest} (tid : txn_id_t) (mode : LockMode)
    (h : QueueInv q) (hown : ⟨tid, mode, false⟩ ∈ q) : QueueInv (acquireQueue tid mode q) := by
  have hw : QueueInv (woundQueue tid mode q) :=
    QueueInv_of_sublist (woundQueue_sublist tid mode q) h
  unfold bustub.acquireQueue
  split
  · rename_i hall
    refine ⟨OnePerTxn_grantQueue hw.1 tid, QueueCompatible_grantQueue tid mode hw.1
      (mem_woundQueue_of_pending tid mode hown rfl) ?_⟩
    intro e he
    have := List.all_eq_true.mp hall e he
    simpa using this
  · exact hw

/-! ## The protocol steps, unfolded -/

theorem LockShared_eq (lm : LockManager) (txn : txn_id_t) (rid : RID) :
    LockShared lm txn rid =
      if lm.GetState txn = TransactionState.ABORTED then (LockResult.refused, lm)
      else if lm.GetState txn = TransactionState.SHRINKING then
        (LockResult.thrown ⟨txn, AbortReason.LOCK_ON_SHRINKING⟩,
          lm.SetState txn TransactionState.ABORTED)
      else Acquire (lm.enqueue rid ⟨txn, LockMode.SHARED, false⟩) txn rid LockMode.SHARED := by
  unfold LockShared ValidateTxnBeforeLock
  cases hs : lm.GetState txn <;> simp

theorem LockExclusive_eq (lm : LockManager) (txn : txn_id_t) (rid : RID) :
    LockExclusive lm txn rid =
      if lm.GetState txn = TransactionState.ABORTED then (LockResult.refused, lm)
      else if lm.GetState txn = TransactionState.SHRINKING then
        (LockResult.thrown ⟨txn, AbortReason.LOCK_ON_SHRINKING⟩,
          lm.SetState txn TransactionState.ABORTED)
      else
        Acquire (lm.enqueue rid ⟨txn, LockMode.EXCLUSIVE, false⟩) txn rid LockMode.EXCLUSIVE := by
  unfold LockExclusive ValidateTxnBeforeLock
  cases hs : lm.GetState txn <;> simp

theorem LockUpgrade_eq (lm : LockManager) (txn : txn_id_t) (rid : RID) :
    LockUpgrade lm txn rid =
      if lm.GetState txn = TransactionState.ABORTED then (LockResult.refused, lm)
      else if lm.GetState txn = TransactionState.SHRINKING then
        (LockResult.thrown ⟨txn, AbortReason.LOCK_ON_SHRINKING⟩,
          lm.SetState txn TransactionState.ABORTED)
      else if (lm.lock_table_ rid).upgrading_ ≠ INVALID_TXN_ID ∧
          (lm.lock_table_ rid).upgrading_ ≠ txn then
        (LockResult.thrown ⟨txn, AbortReason.UPGRADE_CONFLICT⟩,
          lm.SetState txn TransactionState.ABORTED)
      else Acquire (lm.beginUpgrade txn rid) txn rid LockMode.EXCLUSIVE := by
  unfold LockUpgrade ValidateTxnBeforeLock
  cases hs : lm.GetState txn <;> simp

theorem Acquire_queue (lm : LockManager) (tid : txn_id_t) (rid : RID) (mode : LockMode)
    (r : RID) :
    ((Acquire lm tid rid mode).2.lock_table_ r).request_queue_ =
      if r = rid then acquireQueue tid mode (lm.lock_table_ rid).request_queue_
      else (lm.lock_table_ r).request_queue_ := by
  unfold Acquire acquireQueue
  by_cases hr : r = rid
  · subst hr
    simp only [WoundWait, if_true]
    split <;> simp [Grant]
  · simp only [WoundWait, if_true, hr, if_false]
    split <;> simp [Grant, hr]

theorem Acquire_result (lm : LockManager) (tid : txn_id_t) (rid : RID) (mode : LockMode) :
    (Acquire lm tid rid mode).1 =
      if (woundQueue tid mode (lm.lock_table_ rid).request_queue_).all
          (fun e => !ConflictingHolder mode e) then LockResult.granted
      else LockResult.waiting := by
  unfold Acquire
  simp only [WoundWait, if_true]
  split <;> rfl

theorem Acquire_state (lm : LockManager) (tid : txn_id_t) (rid : RID) (mode : LockMode)
    (k : txn_id_t) :
    (Acquire lm tid rid mode).2.GetState k =
      if (lm.lock_table_ rid).request_queue_.any
          (fun e => Wounded tid mode e && decide (e.txn_id_ = k)) then TransactionState.ABORTED
      else lm.GetState k := by
  unfold Acquire LockManager.GetState
  simp only [WoundWait, if_true]
  split
  · simp only [Grant]
    by_cases hk : k = tid
    · simp only [hk, if_true]
      cases mode <;> simp only [Transaction.recordLock] <;> split <;> simp [Transaction.wound]
    · simp only [hk, if_false]
      split <;> simp [Transaction.wound]
  · simp only []
    split <;> simp [Transaction.wound]

theorem Acquire_txn_older (lm : LockManager) (tid : txn_id_t) (rid : RID) (mode : LockMode)
    (k : txn_id_t) (hk : k < tid) :
    (Acquire lm tid rid mode).2.txn_table_ k = lm.txn_table_ k := by
  have hne : k ≠ tid := ne_of_lt hk
  have hnot : (lm.lock_table_ rid).request_queue_.any
      (fun e => Wounded tid mode e && decide (e.txn_id_ = k)) = false := by
    rw [List.any_eq_false]
    intro e _
    simp only [Wounded, Bool.and_eq_true, decide_eq_true_eq, not_and]
    intro h1 h2
    exact lt_asymm hk (h2 ▸ h1.2)
  unfold Acquire
  simp only [WoundWait, if_true]
  split
  · simp only [Grant, hne, if_false, hnot, Bool.false_eq_true]
  · simp only [hnot, Bool.false_eq_true, if_false]

/-! ## The lock-table invariant is kept by every step -/

theorem enqueue_queue (lm : LockManager) (rid : RID) (e : LockRequest) (r : RID) :
    ((lm.enqueue rid e).lock_table_ r).request_queue_ =
      if r = rid then (lm.lock_table_ rid).request_queue_ ++ [e]
      else (lm.lock_table_ r).request_queue_ := by
  unfold LockManager.enqueue LockManager.setRequests
  by_cases hr : r = rid
  · subst hr; simp
  · simp [hr]

theorem Acquire_inv (lm : LockManager) (tid : txn_id_t) (rid : RID) (mode : LockMode)
    (h : lm.Inv) (hown : ⟨tid, mode, false⟩ ∈ (lm.lock_table_ rid).request_queue_) :
    (Acquire lm tid rid mode).2.Inv := by
  intro r
  rw [Acquire_queue]
  split
  · exact QueueInv_acquireQueue tid mode (h rid) hown
  · exact h r

theorem enqueue_inv (lm : LockManager) (rid : RID) (e : LockRequest) (h : lm.Inv)
    (hp : e.granted_ = false)
    (fresh : ∀ x ∈ (lm.lock_table_ rid).request_queue_, x.txn_id_ ≠ e.txn_id_) :
    (lm.enqueue rid e).Inv := by
  intro r
  rw [enqueue_queue]
  split
  · exact ⟨OnePerTxn_append_fresh (h rid).1 e fresh, QueueCompatible_append_pending (h rid).2 e hp⟩
  · exact h r

theorem LockShared_inv (lm : LockManager) (txn : txn_id_t) (rid : RID) (h : lm.Inv)
    (fresh : ∀ e ∈ (lm.lock_table_ rid).request_queue_, e.txn_id_ ≠ txn) :
    (LockShared lm txn rid).2.Inv := by
  rw [LockShared_eq]
  split
  · exact h
  · split
    · exact h
    · apply Acquire_inv _ _ _ _ (enqueue_inv lm rid _ h rfl fresh)
      rw [enqueue_queue]
      simp

theorem LockExclusive_inv (lm : LockManager) (txn : txn_id_t) (rid : RID) (h : lm.Inv)
    (fresh : ∀ e ∈ (lm.lock_table_ rid).request_queue_, e.txn_id_ ≠ txn) :
    (LockExclusive lm txn rid).2.Inv := by
  rw [LockExclusive_eq]
  split
  · exact h
  · split
    · exact h
    · apply Acquire_inv _ _ _ _ (enqueue_inv lm rid _ h rfl fresh)
      rw [enqueue_queue]
      simp

theorem beginUpgrade_queue (lm : LockManager) (txn : txn_id_t) (rid : RID) (r : RID) :
    ((lm.beginUpgrade txn rid).lock_table_ r).request_queue_ =
      if r = rid then
        removeOwn txn (lm.lock_table_ rid).request_queue_ ++ [⟨txn, LockMode.EXCLUSIVE, false⟩]
      else (lm.lock_table_ r).request_queue_ := by
  unfold LockManager.beginUpgrade
  by_cases hr : r = rid
  · subst hr; simp
  · simp [hr]

theorem beginUpgrade_inv (lm : LockManager) (txn : txn_id_t) (rid : RID) (h : lm.Inv) :
    (lm.beginUpgrade txn rid).Inv := by
  intro r
  rw [beginUpgrade_queue]
  split
  · have hs := QueueInv_of_sublist
      (removeOwn_sublist txn (lm.lock_table_ rid).request_queue_) (h rid)
    refine ⟨OnePerTxn_append_fresh hs.1 _ ?_, QueueCompatible_append_pending hs.2 _ rfl⟩
    intro x hx
    unfold removeOwn at hx
    simpa using (List.mem_filter.mp hx).2
  · exact h r

theorem LockUpgrade_inv (lm : LockManager) (txn : txn_id_t) (rid : RID) (h : lm.Inv) :
    (LockUpgrade lm txn rid).2.Inv := by
  rw [LockUpgrade_eq]
  split
  · exact h
  · split
    · exact h
    · split
      · exact h
      · apply Acquire_inv _ _ _ _ (beginUpgrade_inv lm txn rid h)
        rw [beginUpgrade_queue]
        simp

theorem setRequests_queue (lm : LockManager) (rid : RID) (q : List LockRequest) (r : RID) :
    ((lm.setRequests rid q).lock_table_ r).request_queue_ =
      if r = rid then q else (lm.lock_table_ r).request_queue_ := by
  unfold LockManager.setRequests
  by_cases hr : r = rid
  · subst hr; simp
  · simp [hr]

theorem WakeUp_inv (lm : LockManager) (txn : txn_id_t) (rid : RID) (mode : LockMode)
    (h : lm.Inv) (pending : ⟨txn, mode, false⟩ ∈ (lm.lock_table_ rid).request_queue_) :
    (WakeUp lm txn rid mode).2.Inv := by
  unfold WakeUp
  split
  · intro r
    rw [setRequests_queue]
    split
    · exact QueueInv_of_sublist (removeOwn_sublist txn _) (h rid)
    · exact h r
  · exact Acquire_inv lm txn rid mode h pending

theorem Unlock_queue (lm : LockManager) (txn : txn_id_t) (rid : RID) (r : RID) :
    ((Unlock lm txn rid).2.lock_table_ r).request_queue_ =
      if r = rid ∧ lm.holds txn rid = true then removeOwn txn (lm.lock_table_ rid).request_queue_
      else (lm.lock_table_ r).request_queue_ := by
  unfold Unlock
  by_cases hh : lm.holds txn rid = true
  · by_cases hr : r = rid
    · subst hr; simp [hh]
    · simp [hh, hr]
  · simp [hh]

theorem Unlock_inv (lm : LockManager) (txn : txn_id_t) (rid : RID) (h : lm.Inv) :
    (Unlock lm txn rid).2.Inv := by
  intro r
  rw [Unlock_queue]
  split
  · exact QueueInv_of_sublist (removeOwn_sublist txn _) (h rid)
  · exact h r

theorem Call_inv (lm : LockManager) (c : Call) (hd : c.defined lm) (h : lm.Inv) :
    (c.run lm).Inv := by
  cases c with
  | lockShared txn rid => exact LockShared_inv lm txn rid h hd
  | lockExclusive txn rid => exact LockExclusive_inv lm txn rid h hd
  | lockUpgrade txn rid => exact LockUpgrade_inv lm txn rid h
  | wakeUp txn rid mode => exact WakeUp_inv lm txn rid mode h hd
  | unlock txn rid => exact Unlock_inv lm txn rid h

theorem runCalls_inv (calls : List Call) :
    ∀ lm : LockManager, CallsDefined lm calls → lm.Inv → (runCalls lm calls).Inv := by
  induction calls with
  | nil => intro lm _ h; exact h
  | cons c cs ih =>
    intro lm hd h
    exact ih (c.run lm) hd.2 (Call_inv lm c hd.1 h)

theorem initial_inv (txns : txn_id_t → Transaction) : (LockManager.initial txns).Inv := by
  intro r
  refine ⟨?_, Or.inl ?_⟩
  · simp [LockManager.initial, OnePerTxn]
  · simp [LockManager.initial]

theorem Reachable_inv {lm : LockManager} (h : Reachable lm) : lm.Inv := by
  obtain ⟨txns, calls, hd, rfl⟩ := h
  exact runCalls_inv calls _ hd (initial_inv txns)

/-- Two requests of a queue that both satisfy `p` are the same request when
at most one request satisfies `p`. -/
theorem eq_of_countP_le_one {q : List LockRequest} {p : LockRequest → Bool}
    (h : q.countP p ≤ 1) {a b : LockRequest} (ha : a ∈ q) (hb : b ∈ q)
    (hpa : p a = true) (hpb : p b = true) : a = b := by
  rw [List.countP_eq_length_filter] at h
  have ha2 : a ∈ q.filter p := List.mem_filter.mpr ⟨ha, hpa⟩
  have hb2 : b ∈ q.filter p := List.mem_filter.mpr ⟨hb, hpb⟩
  match hf : q.filter p, h, ha2, hb2 with
  | [], _, ha3, _ => simp at ha3
  | [x], _, ha3, hb3 =>
    simp only [List.mem_singleton] at ha3 hb3
    rw [ha3, hb3]
  | _ :: _ :: _, h3, _, _ => simp at h3

theorem QueueCompatible_exclusive_le_one {q : List LockRequest} (h : QueueCompatible q) :
    q.countP (fun e => e.granted_ && decide (e.lock_mode_ = LockMode.EXCLUSIVE)) ≤ 1 := by
  rcases h with h | h
  · have : q.countP (fun e => e.granted_ && decide (e.lock_mode_ = LockMode.EXCLUSIVE)) = 0 := by
      rw [List.countP_eq_zero]
      intro e he
      simp only [Bool.and_eq_true, decide_eq_true_eq, not_and]
      intro hg hx
      have := h e he hg
      rw [hx] at this
      cases this
    omega
  · refine le_trans (List.countP_mono_left ?_) h
    intro e _ he
    simp only [Bool.and_eq_true] at he
    exact he.1

theorem QueueCompatible_no_shared_with_exclusive {q : List LockRequest}
    (h : QueueCompatible q) {a b : LockRequest} (ha : a ∈ q) (hb : b ∈ q)
    (hga : a.granted_ = true) (hma : a.lock_mode_ = LockMode.SHARED)
    (hgb : b.granted_ = true) (hmb : b.lock_mode_ = LockMode.EXCLUSIVE) : False := by
  rcases h with h | h
  · have := h b hb hgb
    rw [hmb] at this
    cases this
  · have hab : a = b := eq_of_countP_le_one h ha hb hga hgb
    rw [hab, hmb] at hma
    cases hma

/-- C8: in every memory reachable through LockShared, LockExclusive,
LockUpgrade and Unlock, the queue of each record has at most one granted
EXCLUSIVE request, and no granted SHARED request coexists with a granted
EXCLUSIVE request (of any transaction). -/
theorem Reachable_mutual_exclusion (lm : LockManager) (h : Reachable lm) (rid : RID) :
    (lm.lock_table_ rid).request_queue_.countP
        (fun e => e.granted_ && decide (e.lock_mode_ = LockMode.EXCLUSIVE)) ≤ 1 ∧
    ∀ a ∈ (lm.lock_table_ rid).request_queue_, ∀ b ∈ (lm.lock_table_ rid).request_queue_,
      a.granted_ = true → a.lock_mode_ = LockMode.SHARED →
      b.granted_ = true → b.lock_mode_ = LockMode.EXCLUSIVE → False :=
  ⟨QueueCompatible_exclusive_le_one (Reachable_inv h rid).2,
    fun _ ha _ hb hga hma hgb hmb =>
      QueueCompatible_no_shared_with_exclusive (Reachable_inv h rid).2 ha hb hga hma hgb hmb⟩

theorem sharedThenExclusive_reachable : Reachable sharedThenExclusive :=
  ⟨growingTxns, [Call.lockShared 1 0, Call.lockExclusive 2 0], by decide, rfl⟩

theorem Reachable_mutual_exclusion_witness :
    Reachable sharedThenExclusive ∧
    (sharedThenExclusive.lock_table_ 0).request_queue_ =
      [⟨1, LockMode.SHARED, true⟩, ⟨2, LockMode.EXCLUSIVE, false⟩] ∧
    ((sharedThenExclusive.lock_table_ 0).request_queue_.countP
        (fun e => e.granted_ && decide (e.lock_mode_ = LockMode.EXCLUSIVE)) ≤ 1 ∧
    ∀ a ∈ (sharedThenExclusive.lock_table_ 0).request_queue_,
      ∀ b ∈ (sharedThenExclusive.lock_table_ 0).request_queue_,
      a.granted_ = true → a.lock_mode_ = LockMode.SHARED →
      b.granted_ = true → b.lock_mode_ = LockMode.EXCLUSIVE → False) :=
  ⟨sharedThenExclusive_reachable, by decide,
    Reachable_mutual_exclusion sharedThenExclusive sharedThenExclusive_reachable 0⟩

/-! ## Transaction states along the steps -/

theorem StateAdvance_shrunk {s s2 : TransactionState} (h : StateAdvance s s2) (hs : Shrunk s) :
    Shrunk s2 := by
  rcases h with h | h | ⟨h, _⟩
  · rw [h]; exact hs
  · exact Or.inr h
  · rcases hs with hs | hs <;> rw [hs] at h <;> cases h

theorem SetState_GetState (lm : LockManager) (txn : txn_id_t) (s : TransactionState)
    (k : txn_id_t) :
    (lm.SetState txn s).GetState k = if k = txn then s else lm.GetState k := by
  unfold LockManager.SetState LockManager.GetState
  by_cases hk : k = txn <;> simp [hk]

theorem SetState_aborted_advance (lm : LockManager) (txn k : txn_id_t) :
    StateAdvance (lm.GetState k) ((lm.SetState txn TransactionState.ABORTED).GetState k) := by
  rw [SetState_GetState]
  split
  · exact Or.inr (Or.inl rfl)
  · exact Or.inl rfl

theorem Acquire_advance (lm : LockManager) (tid : txn_id_t) (rid : RID) (mode : LockMode)
    (k : txn_id_t) :
    StateAdvance (lm.GetState k) ((Acquire lm tid rid mode).2.GetState k) := by
  rw [Acquire_state]
  split
  · exact Or.inr (Or.inl rfl)
  · exact Or.inl rfl

theorem LockShared_advance (lm : LockManager) (txn : txn_id_t) (rid : RID) (k : txn_id_t) :
    StateAdvance (lm.GetState k) ((LockShared lm txn rid).2.GetState k) := by
  rw [LockShared_eq]
  split
  · exact Or.inl rfl
  · split
    · exact SetState_aborted_advance lm txn k
    · exact Acquire_advance (lm.enqueue rid _) txn rid _ k

theorem LockExclusive_advance (lm : LockManager) (txn : txn_id_t) (rid : RID) (k : txn_id_t) :
    StateAdvance (lm.GetState k) ((LockExclusive lm txn rid).2.GetState k) := by
  rw [LockExclusive_eq]
  split
  · exact Or.inl rfl
  · split
    · exact SetState_aborted_advance lm txn k
    · exact Acquire_advance (lm.enqueue rid _) txn rid _ k

theorem LockUpgrade_advance (lm : LockManager) (txn : txn_id_t) (rid : RID) (k : txn_id_t) :
    StateAdvance (lm.GetState k) ((LockUpgrade lm txn rid).2.GetState k) := by
  rw [LockUpgrade_eq]
  split
  · exact Or.inl rfl
  · split
    · exact SetState_aborted_advance lm txn k
    · split
      · exact SetState_aborted_advance lm txn k
      · exact Acquire_advance (lm.beginUpgrade txn rid) txn rid _ k

theorem WakeUp_advance (lm : LockManager) (txn : txn_id_t) (rid : RID) (mode : LockMode)
    (k : txn_id_t) :
    StateAdvance (lm.GetState k) ((WakeUp lm txn rid mode).2.GetState k) := by
  unfold WakeUp
  split
  · exact Or.inl rfl
  · exact Acquire_advance lm txn rid mode k

theorem Unlock_state (lm : LockManager) (txn : txn_id_t) (rid : RID) (k : txn_id_t) :
    (Unlock lm txn rid).2.GetState k =
      if k = txn ∧ lm.holds txn rid = true ∧ lm.GetState k = TransactionState.GROWING then
        TransactionState.SHRINKING
      else lm.GetState k := by
  unfold Unlock LockManager.GetState
  by_cases hh : lm.holds txn rid = true
  · by_cases hk : k = txn
    · subst hk
      by_cases hg : (lm.txn_table_ k).state_ = TransactionState.GROWING <;> simp [hh, hg]
    · simp [hh, hk]
  · simp [hh]

theorem Unlock_advance (lm : LockManager) (txn : txn_id_t) (rid : RID) (k : txn_id_t) :
    StateAdvance (lm.GetState k) ((Unlock lm txn rid).2.GetState k) := by
  rw [Unlock_state]
  split
  · rename_i h
    exact Or.inr (Or.inr ⟨h.2.2, rfl⟩)
  · exact Or.inl rfl

theorem Call_advance (lm : LockManager) (c : Call) (k : txn_id_t) :
    StateAdvance (lm.GetState k) ((c.run lm).GetState k) := by
  cases c with
  | lockShared txn rid => exact LockShared_advance lm txn rid k
  | lockExclusive txn rid => exact LockExclusive_advance lm txn rid k
  | lockUpgrade txn rid => exact LockUpgrade_advance lm txn rid k
  | wakeUp txn rid mode => exact WakeUp_advance lm txn rid mode k
  | unlock txn rid => exact Unlock_advance lm txn rid k

theorem runCalls_shrunk (calls : List Call) (k : txn_id_t) :
    ∀ lm : LockManager, Shrunk (lm.GetState k) → Shrunk ((runCalls lm calls).GetState k) := by
  induction calls with
  | nil => intro lm h; exact h
  | cons c cs ih =>
    intro lm h
    exact ih (c.run lm) (StateAdvance_shrunk (Call_advance lm c k) h)

theorem LockShared_rejected (lm : LockManager) (txn : txn_id_t) (rid : RID)
    (h : Shrunk (lm.GetState txn)) : (LockShared lm txn rid).1.rejected = true := by
  rw [LockShared_eq]
  rcases h with h | h <;> simp [h, LockResult.rejected]

theorem LockExclusive_rejected (lm : LockManager) (txn : txn_id_t) (rid : RID)
    (h : Shrunk (lm.GetState txn)) : (LockExclusive lm txn rid).1.rejected = true := by
  rw [LockExclusive_eq]
  rcases h with h | h <;> simp [h, LockResult.rejected]

theorem LockUpgrade_rejected (lm : LockManager) (txn : txn_id_t) (rid : RID)
    (h : Shrunk (lm.GetState txn)) : (LockUpgrade lm txn rid).1.rejected = true := by
  rw [LockUpgrade_eq]
  rcases h with h | h <;> simp [h, LockResult.rejected]

theorem LockResult_not_granted_of_rejected {res : LockResult} (h : res.rejected = true) :
    res ≠ LockResult.granted ∧ res ≠ LockResult.waiting := by
  cases res <;> simp [LockResult.rejected] at h ⊢

/-- C9, as stated, fails: transaction 1 is GROWING and holds SHARED on record
0, `Unlock` returns true and leaves it SHRINKING; once its state has been
set to COMMITTED (a commit by the transaction manager, through
`txn->SetState`), its later LockShared, LockExclusive and LockUpgrade calls
pass `ValidateTxnBeforeLock` and are granted. -/
theorem Unlock_then_committed_lock_granted :
    oneShared.GetState 1 = TransactionState.GROWING ∧ oneShared.holds 1 0 = true ∧
    (Unlock oneShared 1 0).1 = true ∧
    (Unlock oneShared 1 0).2.GetState 1 = TransactionState.SHRINKING ∧
    (LockShared ((Unlock oneShared 1 0).2.SetState 1 TransactionState.COMMITTED) 1 5).1 =
      LockResult.granted ∧
    (LockExclusive ((Unlock oneShared 1 0).2.SetState 1 TransactionState.COMMITTED) 1 5).1 =
      LockResult.granted ∧
    (LockUpgrade ((Unlock oneShared 1 0).2.SetState 1 TransactionState.COMMITTED) 1 5).1 =
      LockResult.granted := by
  refine ⟨?_, ?_, ?_, ?_, ?_, ?_, ?_⟩ <;> decide

/-- C9, amended: `Unlock` by a GROWING transaction that holds a lock on the
record returns true and leaves the transaction SHRINKING; every sequence of
lock-manager steps of any transactions keeps it SHRINKING or ABORTED; and in
every memory in which its state is SHRINKING or ABORTED a LockShared,
LockExclusive or LockUpgrade call of the transaction is not granted: it
neither returns true nor waits, it returns false or throws.  `Unlock` by a
transaction that is not GROWING leaves its state unchanged. -/
theorem Unlock_strict_two_phase (lm : LockManager) (txn : txn_id_t) (rid : RID) :
    (lm.GetState txn = TransactionState.GROWING → lm.holds txn rid = true →
      (Unlock lm txn rid).1 = true ∧
      (Unlock lm txn rid).2.GetState txn = TransactionState.SHRINKING ∧
      ∀ calls : List Call,
        (runCalls (Unlock lm txn rid).2 calls).GetState txn = TransactionState.SHRINKING ∨
        (runCalls (Unlock lm txn rid).2 calls).GetState txn = TransactionState.ABORTED) ∧
    (∀ (lm2 : LockManager) (r2 : RID),
      lm2.GetState txn = TransactionState.SHRINKING ∨
        lm2.GetState txn = TransactionState.ABORTED →
      ((LockShared lm2 txn r2).1 ≠ LockResult.granted ∧
        (LockShared lm2 txn r2).1.rejected = true) ∧
      ((LockExclusive lm2 txn r2).1 ≠ LockResult.granted ∧
        (LockExclusive lm2 txn r2).1.rejected = true) ∧
      ((LockUpgrade lm2 txn r2).1 ≠ LockResult.granted ∧
        (LockUpgrade lm2 txn r2).1.rejected = true)) ∧
    (lm.GetState txn ≠ TransactionState.GROWING →
      (Unlock lm txn rid).2.GetState txn = lm.GetState txn) := by
  refine ⟨?_, ?_, ?_⟩
  · intro hg hh
    have hst : (Unlock lm txn rid).2.GetState txn = TransactionState.SHRINKING := by
      rw [Unlock_state]; simp [hg, hh]
    exact ⟨by simp [Unlock, hh], hst, fun calls => runCalls_shrunk calls txn _ (Or.inl hst)⟩
  · intro lm2 r2 hsh
    exact ⟨⟨(LockResult_not_granted_of_rejected (LockShared_rejected lm2 txn r2 hsh)).1,
        LockShared_rejected lm2 txn r2 hsh⟩,
      ⟨(LockResult_not_granted_of_rejected (LockExclusive_rejected lm2 txn r2 hsh)).1,
        LockExclusive_rejected lm2 txn r2 hsh⟩,
      ⟨(LockResult_not_granted_of_rejected (LockUpgrade_rejected lm2 txn r2 hsh)).1,
        LockUpgrade_rejected lm2 txn r2 hsh⟩⟩
  · intro hg
    rw [Unlock_state]
    simp [hg]

theorem Unlock_strict_two_phase_witness :
    oneShared.GetState 1 = TransactionState.GROWING ∧ oneShared.holds 1 0 = true ∧
    (Unlock oneShared 1 0).1 = true ∧
    (Unlock oneShared 1 0).2.GetState 1 = TransactionState.SHRINKING ∧
    ((runCalls (Unlock oneShared 1 0).2 [Call.lockShared 2 0]).GetState 1 =
        TransactionState.SHRINKING ∨
      (runCalls (Unlock oneShared 1 0).2 [Call.lockShared 2 0]).GetState 1 =
        TransactionState.ABORTED) ∧
    (LockShared (Unlock oneShared 1 0).2 1 5).1 ≠ LockResult.granted ∧
    (LockExclusive (runCalls (Unlock oneShared 1 0).2 [Call.lockShared 2 0]) 1 0).1 ≠
      LockResult.granted ∧
    exampleManager.GetState 3 ≠ TransactionState.GROWING ∧
    (Unlock exampleManager 3 7).2.GetState 3 = exampleManager.GetState 3 :=
  have h := (Unlock_strict_two_phase oneShared 1 0).1 (by decide) (by decide)
  have h2 := (Unlock_strict_two_phase oneShared 1 0).2.1
  ⟨by decide, by decide, h.1, h.2.1, h.2.2 [Call.lockShared 2 0],
    (h2 _ 5 (h.2.2 [])).1.1, (h2 _ 0 (h.2.2 [Call.lockShared 2 0])).2.1.1,
    by decide, (Unlock_strict_two_phase exampleManager 3 7).2.2 (by decide)⟩

/-! ## Wound-wait -/

theorem not_mem_acquireQueue_of_wounded (tid : txn_id_t) (mode : LockMode)
    (q : List LockRequest) (e : LockRequest) (hw : Wounded tid mode e = true) :
    e ∉ acquireQueue tid mode q := by
  have hlt : tid < e.txn_id_ := by
    simp only [Wounded, Bool.and_eq_true, decide_eq_true_eq] at hw
    exact hw.2
  have h1 : e ∉ woundQueue tid mode q := by
    unfold woundQueue
    rw [List.mem_filter]
    rintro ⟨_, h⟩
    simp [hw] at h
  unfold acquireQueue
  split
  · unfold grantQueue
    intro he
    obtain ⟨x, hx, hxe⟩ := List.mem_map.mp he
    by_cases hid : x.txn_id_ = tid
    · simp only [hid, if_true] at hxe
      have : e.txn_id_ = tid := by rw [← hxe, ← hid]
      exact absurd this (ne_of_gt hlt)
    · simp only [hid, if_false] at hxe
      exact h1 (hxe ▸ hx)
  · exact h1

/-- The wound-wait pass and the grant decision of `Acquire`, run in a memory
`lm1` that has the transactions of `lm` and at least the requests of `lm` in
the queue of the record. -/
theorem Acquire_direction (lm lm1 : LockManager) (tid : txn_id_t) (rid : RID)
    (mode : LockMode) (htx : lm1.txn_table_ = lm.txn_table_)
    (hq : ∀ e ∈ (lm.lock_table_ rid).request_queue_, e ∈ (lm1.lock_table_ rid).request_queue_) :
    WoundWaitDirection lm tid rid mode (Acquire lm1 tid rid mode) := by
  refine ⟨?_, ?_, ?_⟩
  · intro A hA
    rw [Acquire_txn_older lm1 tid rid mode A hA, htx]
  · intro e he hg hc hlt
    have hw : Wounded tid mode e = true := by
      simp [Wounded, ConflictingHolder, hg, hc, hlt]
    constructor
    · rw [Acquire_state, if_pos]
      rw [List.any_eq_true]
      exact ⟨e, hq e he, by simp [hw]⟩
    · rw [Acquire_queue, if_pos rfl]
      exact not_mem_acquireQueue_of_wounded tid mode _ e hw
  · rintro ⟨e, he, hg, hc, hle⟩
    rw [Acquire_result, if_neg]
    intro hall
    have hmem : e ∈ woundQueue tid mode (lm1.lock_table_ rid).request_queue_ := by
      unfold woundQueue
      rw [List.mem_filter]
      refine ⟨hq e he, ?_⟩
      simp only [Wounded, Bool.not_eq_true', Bool.and_eq_false_iff, decide_eq_false_iff_not,
        not_lt]
      exact Or.inr hle
    have := List.all_eq_true.mp hall e hmem
    simp [ConflictingHolder, hg, hc] at this

theorem LockShared_older (lm : LockManager) (B : txn_id_t) (rid : RID) (A : txn_id_t)
    (hA : A < B) : (LockShared lm B rid).2.txn_table_ A = lm.txn_table_ A := by
  rw [LockShared_eq]
  split
  · rfl
  · split
    · simp [LockManager.SetState, ne_of_lt hA]
    · rw [Acquire_txn_older _ B rid _ A hA]
      rfl

theorem LockExclusive_older (lm : LockManager) (B : txn_id_t) (rid : RID) (A : txn_id_t)
    (hA : A < B) : (LockExclusive lm B rid).2.txn_table_ A = lm.txn_table_ A := by
  rw [LockExclusive_eq]
  split
  · rfl
  · split
    · simp [LockManager.SetState, ne_of_lt hA]
    · rw [Acquire_txn_older _ B rid _ A hA]
      rfl

theorem WakeUp_older (lm : LockManager) (B : txn_id_t) (rid : RID) (mode : LockMode)
    (A : txn_id_t) (hA : A < B) : (WakeUp lm B rid mode).2.txn_table_ A = lm.txn_table_ A := by
  unfold WakeUp
  split
  · rfl
  · exact Acquire_txn_older lm B rid mode A hA

/-- C10: wound-wait direction.  A LockShared or LockExclusive call of a
transaction `B`, and every wake-up of a waiting request of `B`, leaves every
transaction with a smaller id untouched (none is set to ABORTED).  When the
call passes the phase check, every granted holder of the record with a
conflicting mode and a greater id is ABORTED after the step and its request
is no longer in the queue, whether `B` is granted in that step or waits; and
when a granted conflicting holder has a smaller or equal id, `B` waits. -/
theorem wound_wait_direction (lm : LockManager) (B : txn_id_t) (rid : RID) :
    (∀ A, A < B →
      (LockShared lm B rid).2.txn_table_ A = lm.txn_table_ A ∧
      (LockExclusive lm B rid).2.txn_table_ A = lm.txn_table_ A ∧
      ∀ mode, (WakeUp lm B rid mode).2.txn_table_ A = lm.txn_table_ A) ∧
    (lm.GetState B ≠ TransactionState.ABORTED → lm.GetState B ≠ TransactionState.SHRINKING →
      WoundWaitDirection lm B rid LockMode.SHARED (LockShared lm B rid) ∧
      WoundWaitDirection lm B rid LockMode.EXCLUSIVE (LockExclusive lm B rid) ∧
      ∀ mode, WoundWaitDirection lm B rid mode (WakeUp lm B rid mode)) := by
  refine ⟨fun A hA => ⟨LockShared_older lm B rid A hA, LockExclusive_older lm B rid A hA,
    fun mode => WakeUp_older lm B rid mode A hA⟩, ?_⟩
  intro h1 h2
  refine ⟨?_, ?_, ?_⟩
  · rw [LockShared_eq, if_neg h1, if_neg h2]
    refine Acquire_direction lm (lm.enqueue rid _) B rid _ rfl ?_
    intro e he
    rw [enqueue_queue, if_pos rfl]
    exact List.mem_append_left _ he
  · rw [LockExclusive_eq, if_neg h1, if_neg h2]
    refine Acquire_direction lm (lm.enqueue rid _) B rid _ rfl ?_
    intro e he
    rw [enqueue_queue, if_pos rfl]
    exact List.mem_append_left _ he
  · intro mode
    unfold WakeUp
    rw [if_neg h1]
    exact Acquire_direction lm lm B rid mode rfl (fun _ he => he)

theorem wound_wait_direction_witness :
    oneExclusive.GetState 1 ≠ TransactionState.ABORTED ∧
    oneExclusive.GetState 1 ≠ TransactionState.SHRINKING ∧
    (oneExclusive.lock_table_ 0).request_queue_ = [⟨2, LockMode.EXCLUSIVE, true⟩] ∧
    (LockShared oneExclusive 1 0).1 = LockResult.granted ∧
    (LockShared oneExclusive 1 0).2.GetState 2 = TransactionState.ABORTED ∧
    ((LockShared oneExclusive 1 0).2.lock_table_ 0).request_queue_ =
      [⟨1, LockMode.SHARED, true⟩] ∧
    (LockShared oneExclusive 3 0).1 = LockResult.waiting ∧
    (LockShared oneExclusive 3 0).2.txn_table_ 2 = oneExclusive.txn_table_ 2 ∧
    (WoundWaitDirection oneExclusive 1 0 LockMode.SHARED (LockShared oneExclusive 1 0) ∧
      WoundWaitDirection oneExclusive 1 0 LockMode.EXCLUSIVE (LockExclusive oneExclusive 1 0) ∧
      ∀ mode, WoundWaitDirection oneExclusive 1 0 mode (WakeUp oneExclusive 1 0 mode)) :=
  ⟨by decide, by decide, by decide, by decide, by decide, by decide, by decide,
    ((wound_wait_direction oneExclusive 3 0).1 2 (by decide)).1,
    (wound_wait_direction oneExclusive 1 0).2 (by decide) (by decide)⟩

/-! ## Bitmap bytes -/

set_option maxRecDepth 100000 in
theorem bitOf_set_byte : ∀ b < 256, ∀ j < 8, ∀ i < 8,
    bitOf ((b ||| (1 <<< j)) % 256) i = (decide (i = j) || bitOf b i) := by
  decide

set_option maxRecDepth 100000 in
theorem bitOf_clear_byte : ∀ b < 256, ∀ j < 8, ∀ i < 8,
    bitOf ((b &&& (2 ^ 64 - 1 - (1 <<< j))) % 256) i = (!decide (i = j) && bitOf b i) := by
  decide

set_option maxRecDepth 100000 in
theorem byte_eq_zero_of_bits : ∀ b < 256, (∀ j < 8, bitOf b j = false) → b = 0 := by
  decide

set_option maxRecDepth 100000 in
theorem bitOf_zero : ∀ j < 8, bitOf 0 j = false := by
  decide

set_option maxRecDepth 100000 in
theorem bitOf_full_byte : ∀ j < 8, bitOf 255 j = true := by
  decide

set_option maxRecDepth 100000 in
theorem findBit_spec : ∀ b < 256, b ≠ 255 →
    Insert.findBit b 8 0 < 8 ∧ bitOf b (Insert.findBit b 8 0) = false ∧
      ∀ j < 8, j < Insert.findBit b 8 0 → bitOf b j = true := by
  decide

theorem shiftRight_three (i : Nat) : i >>> 3 = i / 8 := by
  rw [Nat.shiftRight_eq_div_pow]

theorem and_seven (i : Nat) : i &&& 7 = i % 8 := by
  have := Nat.and_pow_two_sub_one_eq_mod i 3
  simpa using this

/-! ## Bitmaps -/

section BucketProofs

variable {K V : Type}

theorem IsReadable_eq_bitAt (p : HashTableBucketPage K V) (i : Nat) :
    IsReadable p i = bitAt p.readable_ i := by
  simp [IsReadable, bitAt, shiftRight_three, and_seven]

theorem IsOccupied_eq_bitAt (p : HashTableBucketPage K V) (i : Nat) :
    IsOccupied p i = bitAt p.occupied_ i := by
  simp [IsOccupied, bitAt, shiftRight_three, and_seven]

theorem bitAt_isSome (bm : List Nat) (i : Nat) (h : i < 8 * bm.length) :
    ∃ x, bitAt bm i = some x := by
  have hi : i / 8 < bm.length := by omega
  simp [bitAt, List.getElem?_eq_getElem hi]

theorem bitAt_none (bm : List Nat) (i : Nat) (h : 8 * bm.length ≤ i) : bitAt bm i = none := by
  have hi : bm.length ≤ i / 8 := by omega
  simp [bitAt, List.getElem?_eq_none hi]

theorem lt_of_bitAt_some {bm : List Nat} {i : Nat} {x : Bool} (h : bitAt bm i = some x) :
    i < 8 * bm.length := by
  by_contra hc
  rw [bitAt_none bm i (by omega)] at h
  cases h

/-- Replacing the byte of bit `idx` by a byte that differs from it at most
in that bit changes the bitmap at most in bit `idx`. -/
theorem bitAt_set (bm : List Nat) (idx i b c : Nat) (v : Bool)
    (hb : bm[idx / 8]? = some b)
    (hc : ∀ t < 8, bitOf c t = if t = idx % 8 then v else bitOf b t) :
    bitAt (bm.set (idx / 8) c) i = (bitAt bm i).map (fun x => if i = idx then v else x) := by
  unfold bitAt
  by_cases hk : i / 8 = idx / 8
  · have hlen : idx / 8 < bm.length := by
      by_contra hlt
      rw [List.getElem?_eq_none (by omega)] at hb
      cases hb
    rw [hk, List.getElem?_set_self hlen, hb]
    simp only [Option.map_some', Option.some.injEq]
    rw [hc (i % 8) (Nat.mod_lt _ (by omega))]
    have hiff : i % 8 = idx % 8 ↔ i = idx := by
      constructor
      · intro h
        have h1 := Nat.div_add_mod i 8
        have h2 := Nat.div_add_mod idx 8
        omega
      · intro h; rw [h]
    by_cases hi : i = idx
    · simp [hi]
    · simp [hi, hiff]
  · have hne : idx / 8 ≠ i / 8 := fun h => hk h.symm
    rw [List.getElem?_set_ne hne]
    have hi : i ≠ idx := fun h => hk (by rw [h])
    cases bm[i / 8]? <;> simp [hi]

theorem bitAt_set_bit (bm : List Nat) (idx i b : Nat) (hb : bm[idx / 8]? = some b)
    (hlt : b < 256) :
    bitAt (bm.set (idx / 8) ((b ||| (1 <<< (idx % 8))) % 256)) i =
      (bitAt bm i).map (fun x => if i = idx then true else x) := by
  apply bitAt_set bm idx i b _ true hb
  intro t ht
  rw [bitOf_set_byte b hlt (idx % 8) (Nat.mod_lt _ (by omega)) t ht]
  by_cases h : t = idx % 8 <;> simp [h]

theorem bitAt_clear_bit (bm : List Nat) (idx i b : Nat) (hb : bm[idx / 8]? = some b)
    (hlt : b < 256) :
    bitAt (bm.set (idx / 8) ((b &&& (2 ^ 64 - 1 - (1 <<< (idx % 8)))) % 256)) i =
      (bitAt bm i).map (fun x => if i = idx then false else x) := by
  apply bitAt_set bm idx i b _ false hb
  intro t ht
  rw [bitOf_clear_byte b hlt (idx % 8) (Nat.mod_lt _ (by omega)) t ht]
  by_cases h : t = idx % 8 <;> simp [h]

theorem bytes_set_lt (bm : List Nat) (k c : Nat) (h : ∀ b ∈ bm, b < 256) (hc : c < 256) :
    ∀ b ∈ bm.set k c, b < 256 := by
  intro b hb
  rcases List.mem_or_eq_of_mem_set hb with hb | hb
  · exact h b hb
  · rw [hb]; exact hc

end BucketProofs

/-! ## The bitmap updates -/

section BucketUpdates

variable {K V : Type}

theorem UnSetReadable_some {p q : HashTableBucketPage K V} {idx : Nat}
    (h : UnSetReadable p idx = some q) :
    ∃ b, p.readable_[idx / 8]? = some b ∧
      q = { p with
        readable_ :=
          p.readable_.set (idx / 8) ((b &&& (2 ^ 64 - 1 - (1 <<< (idx % 8)))) % 256) } := by
  unfold UnSetReadable at h
  rw [shiftRight_three, and_seven] at h
  cases hb : p.readable_[idx / 8]? with
  | none => simp [hb] at h
  | some b =>
    simp only [hb, Option.some.injEq] at h
    exact ⟨b, rfl, h.symm⟩

theorem SetReadable_some {p q : HashTableBucketPage K V} {idx : Nat}
    (h : SetReadable p idx = some q) :
    ∃ b, p.readable_[idx / 8]? = some b ∧
      q = { p with
        readable_ := p.readable_.set (idx / 8) ((b ||| (1 <<< (idx % 8))) % 256) } := by
  unfold SetReadable at h
  rw [shiftRight_three, and_seven] at h
  cases hb : p.readable_[idx / 8]? with
  | none => simp [hb] at h
  | some b =>
    simp only [hb, Option.some.injEq] at h
    exact ⟨b, rfl, h.symm⟩

theorem SetOccupied_some {p q : HashTableBucketPage K V} {idx : Nat}
    (h : SetOccupied p idx = some q) :
    ∃ b, p.occupied_[idx / 8]? = some b ∧
      q = { p with
        occupied_ := p.occupied_.set (idx / 8) ((b ||| (1 <<< (idx % 8))) % 256) } := by
  unfold SetOccupied at h
  rw [shiftRight_three, and_seven] at h
  cases hb : p.occupied_[idx / 8]? with
  | none => simp [hb] at h
  | some b =>
    simp only [hb, Option.some.injEq] at h
    exact ⟨b, rfl, h.symm⟩

theorem mem_of_getElem_some {bm : List Nat} {k b : Nat} (h : bm[k]? = some b) : b ∈ bm := by
  obtain ⟨hk, hb⟩ := List.getElem?_eq_some.mp h
  rw [← hb]
  exact List.getElem_mem hk

/-- What `UnSetReadable` does to a page with byte-sized bitmap entries: the
readable bit of the slot is cleared, nothing else changes. -/
theorem UnSetReadable_effect {p q : HashTableBucketPage K V} {idx : Nat}
    (h : UnSetReadable p idx = some q) (hbyte : ∀ b ∈ p.readable_, b < 256) :
    q.BUCKET_ARRAY_SIZE = p.BUCKET_ARRAY_SIZE ∧ q.occupied_ = p.occupied_ ∧
    q.array_ = p.array_ ∧ q.readable_.length = p.readable_.length ∧
    (∀ b ∈ q.readable_, b < 256) ∧
    ∀ i, IsReadable q i = (IsReadable p i).map (fun x => if i = idx then false else x) := by
  obtain ⟨b, hb, rfl⟩ := UnSetReadable_some h
  refine ⟨rfl, rfl, rfl, by simp, ?_, ?_⟩
  · exact bytes_set_lt _ _ _ hbyte (Nat.mod_lt _ (by omega))
  · intro i
    rw [IsReadable_eq_bitAt, IsReadable_eq_bitAt]
    exact bitAt_clear_bit p.readable_ idx i b hb (hbyte b (mem_of_getElem_some hb))

theorem UnSetReadable_inv {p q : HashTableBucketPage K V} {idx : Nat}
    (h : UnSetReadable p idx = some q) (hp : BucketInv p) : BucketInv q := by
  obtain ⟨hB, hocc, harr, hlen, hbyte, hbit⟩ := UnSetReadable_effect h hp.readable_byte
  have hsub : ∀ i, IsReadable q i = some true → IsReadable p i = some true := by
    intro i hi
    rw [hbit i] at hi
    cases hx : IsReadable p i with
    | none => simp [hx] at hi
    | some x =>
      by_cases hidx : i = idx <;> simp [hx, hidx] at hi
      rw [hi]
  have hoc : ∀ i, IsOccupied q i = IsOccupied p i := by
    intro i; simp [IsOccupied, hocc]
  constructor
  · rw [hocc]; exact hp.bitmap_pos
  · rw [hlen, hocc]; exact hp.readable_len
  · rw [hB, hocc]; exact hp.size_le
  · rw [hocc]; exact hp.occupied_byte
  · exact hbyte
  · intro i hi; rw [hoc]; exact hp.readable_occupied i (hsub i hi)
  · intro i hi; rw [hoc] at hi ⊢; exact hp.occupied_closed i hi
  · intro i hi; rw [hoc] at hi; rw [hB]; exact hp.occupied_inside i hi
  · intro i j hi hj hij
    rw [harr] at hij
    exact hp.no_duplicate i j (hsub i hi) (hsub j hj) hij

/-! ## The search for a free slot in `Insert` -/

theorem findByte_some : ∀ (bytes : List Nat) (k k2 temp : Nat),
    Insert.findByte bytes k = some (k2, temp) →
      ∃ t, k2 = k + t ∧ bytes[t]? = some temp ∧ temp ≠ 255 ∧ ∀ s < t, bytes[s]? = some 255 := by
  intro bytes
  induction bytes with
  | nil => intro k k2 temp h; simp [Insert.findByte] at h
  | cons b bs ih =>
    intro k k2 temp h
    unfold Insert.findByte at h
    by_cases hb : b = 255
    · rw [if_pos hb] at h
      obtain ⟨t, hk, ht, hne, hall⟩ := ih (k + 1) k2 temp h
      refine ⟨t + 1, by omega, by simpa using ht, hne, ?_⟩
      intro s hs
      cases s with
      | zero => simp [hb]
      | succ s => simpa using hall s (by omega)
    · rw [if_neg hb] at h
      simp only [Option.some.injEq, Prod.mk.injEq] at h
      exact ⟨0, by omega, by simp [h.2], by rw [← h.2]; exact hb, by intro s hs; omega⟩

theorem findByte_none : ∀ (bytes : List Nat) (k : Nat),
    Insert.findByte bytes k = none → ∀ b ∈ bytes, b = 255 := by
  intro bytes
  induction bytes with
  | nil => intro k _ b hb; simp at hb
  | cons b bs ih =>
    intro k h c hc
    unfold Insert.findByte at h
    by_cases hb : b = 255
    · rw [if_pos hb] at h
      rcases List.mem_cons.mp hc with hc | hc
      · rw [hc]; exact hb
      · exact ih (k + 1) h c hc
    · rw [if_neg hb] at h
      cases h

/-- The slot that `Insert` picks is the first one whose readable bit is
clear. -/
theorem findByte_first_free (bm : List Nat) (hbyte : ∀ b ∈ bm, b < 256) (k temp : Nat)
    (h : Insert.findByte bm 0 = some (k, temp)) :
    bitAt bm (k * 8 + Insert.findBit temp 8 0) = some false ∧
      ∀ i < k * 8 + Insert.findBit temp 8 0, bitAt bm i = some true := by
  obtain ⟨t, hk, ht, hne, hall⟩ := findByte_some bm 0 k temp h
  have hkt : k = t := by omega
  subst hkt
  obtain ⟨hj, hclear, hbelow⟩ := findBit_spec temp (hbyte temp (mem_of_getElem_some ht)) hne
  have hdiv : (k * 8 + Insert.findBit temp 8 0) / 8 = k := by omega
  have hmod : (k * 8 + Insert.findBit temp 8 0) % 8 = Insert.findBit temp 8 0 := by omega
  constructor
  · simp [bitAt, hdiv, hmod, ht, hclear]
  · intro i hi
    unfold bitAt
    by_cases hik : i / 8 < k
    · rw [hall (i / 8) hik]
      simp [bitOf_full_byte (i % 8) (Nat.mod_lt _ (by omega))]
    · have hik2 : i / 8 = k := by omega
      rw [hik2, ht]
      simp only [Option.map_some', Option.some.injEq]
      exact hbelow (i % 8) (Nat.mod_lt _ (by omega)) (by omega)

end BucketUpdates

/-! ## What `GetValue` returns -/

section BucketGetValue

variable {K V : Type}

theorem GetValue_scan_eq (p : HashTableBucketPage K V) (key : K) (cmp : K → K → Int) :
    ∀ (n i : Nat) (result : List V), (∀ t, t < n → ∃ x, IsReadable p (i + t) = some x) →
      GetValue.scan p key cmp n i result =
        some (result ++ (List.range' i n).filterMap (slotHit p key cmp)) := by
  intro n
  induction n with
  | zero => intro i result _; simp [GetValue.scan]
  | succ n ih =>
    intro i result hdef
    have hrest : ∀ t, t < n → ∃ x, IsReadable p (i + 1 + t) = some x := by
      intro t ht
      have := hdef (t + 1) (by omega)
      rwa [show i + (t + 1) = i + 1 + t by omega] at this
    obtain ⟨x, hx⟩ := hdef 0 (by omega)
    rw [Nat.add_zero] at hx
    unfold GetValue.scan
    rw [List.range'_succ, List.filterMap_cons]
    by_cases hc : cmp key (p.array_ i).1 = 0
    · rw [if_pos hc, hx]
      cases x with
      | true =>
        simp only [ih (i + 1) _ hrest, slotHit, hc, hx, and_self, if_true, List.append_assoc,
          List.singleton_append]
      | false =>
        simp only [ih (i + 1) _ hrest, slotHit, hc, hx, Option.some.injEq, and_false, if_false]
        simp
    · rw [if_neg hc, ih (i + 1) _ hrest]
      simp [slotHit, hc]

theorem GetValue_loop_eq (p : HashTableBucketPage K V) (key : K) (cmp : K → K → Int)
    (hlen : p.readable_.length = p.occupied_.length) (hpos : 0 < p.occupied_.length) :
    ∀ (rest pre : List Nat) (result : List V), p.occupied_ = pre ++ rest →
      ∃ m, m ≤ rest.length ∧ (m < rest.length → rest[m]? = some 0) ∧
        GetValue.loop p key cmp (rest ++ p.readable_) pre.length (8 * pre.length)
            (8 * pre.length + 8) result =
          some (result ++ (List.range' (8 * pre.length) (8 * m)).filterMap
            (slotHit p key cmp)) := by
  intro rest
  induction rest with
  | nil =>
    intro pre result hocc
    refine ⟨0, le_refl _, by simp, ?_⟩
    have hk : pre.length = p.occupied_.length := by rw [hocc]; simp
    cases hrd : p.readable_ with
    | nil => rw [hrd] at hlen; simp at hlen; omega
    | cons r rs =>
      simp [GetValue.loop, hk]
  | cons b rest ih =>
    intro pre result hocc
    have hk : pre.length ≠ p.occupied_.length := by rw [hocc]; simp
    by_cases hb : b = 0
    · refine ⟨0, by simp, by intro _; simp [hb], ?_⟩
      simp [GetValue.loop, hb]
    · have hscan := GetValue_scan_eq p key cmp 8 (8 * pre.length) result (by
        intro t ht
        rw [IsReadable_eq_bitAt]
        apply bitAt_isSome
        have : pre.length < p.occupied_.length := by rw [hocc]; simp
        omega)
      obtain ⟨m, hm, hzero, hloop⟩ := ih (pre ++ [b])
        (result ++ (List.range' (8 * pre.length) 8).filterMap (slotHit p key cmp))
        (by rw [hocc]; simp)
      refine ⟨m + 1, by simp; omega, ?_, ?_⟩
      · intro hlt
        have := hzero (by simpa using hlt)
        simpa using this
      · have e1 : 8 * pre.length + 8 - 8 * pre.length = 8 := by omega
        have e2 : 8 * (pre ++ [b]).length = 8 * pre.length + 8 := by simp; omega
        rw [e2, show (pre ++ [b]).length = pre.length + 1 by simp] at hloop
        rw [List.cons_append, GetValue.loop, if_pos ⟨hb, hk⟩, e1, hscan]
        simp only []
        rw [hloop, show 8 * (m + 1) = 8 * m + 8 by omega, ← List.range'_append_1,
          List.filterMap_append, List.append_assoc]

theorem filterMap_range_cut {α : Type} (f : Nat → Option α) (a b : Nat) (hab : a ≤ b)
    (h : ∀ i, a ≤ i → i < b → f i = none) :
    (List.range b).filterMap f = (List.range a).filterMap f := by
  obtain ⟨d, rfl⟩ := Nat.exists_eq_add_of_le hab
  rw [List.range_add, List.filterMap_append]
  have : (List.map (fun x => a + x) (List.range d)).filterMap f = [] := by
    rw [List.filterMap_eq_nil_iff]
    intro x hx
    obtain ⟨y, hy, rfl⟩ := List.mem_map.mp hx
    exact h (a + y) (by omega) (by have := List.mem_range.mp hy; omega)
  rw [this, List.append_nil]

theorem occupied_downward {p : HashTableBucketPage K V} (hp : BucketInv p) :
    ∀ (d i : Nat), IsOccupied p (i + d) = some true → IsOccupied p i = some true := by
  intro d
  induction d with
  | zero => intro i h; exact h
  | succ d ih =>
    intro i h
    exact ih i (hp.occupied_closed (i + d) h)

theorem slotHit_none_of_not_readable (p : HashTableBucketPage K V) (key : K)
    (cmp : K → K → Int) (i : Nat) (h : IsReadable p i ≠ some true) :
    slotHit p key cmp i = none := by
  simp [slotHit, h]

/-- On a page that satisfies the invariant `GetValue` appends exactly the
stored values of the key to `*result`, whatever lies behind the page. -/
theorem GetValue_eq_of_inv {p : HashTableBucketPage K V} (hp : BucketInv p) (key : K)
    (cmp : K → K → Int) (result : List V) :
    GetValue p key cmp result =
      some (!(result ++ storedValues p key cmp).isEmpty, result ++ storedValues p key cmp) := by
  obtain ⟨m, hm, hzero, hloop⟩ :=
    GetValue_loop_eq p key cmp hp.readable_len hp.bitmap_pos p.occupied_ [] result rfl
  simp only [List.length_nil, Nat.mul_zero, Nat.zero_add, List.nil_append] at hloop
  have hbeyond : ∀ i, 8 * m ≤ i → slotHit p key cmp i = none := by
    intro i hi
    apply slotHit_none_of_not_readable
    intro hr
    have ho := hp.readable_occupied i hr
    by_cases hlt : m < p.occupied_.length
    · have h0 : IsOccupied p (8 * m) = some true := by
        obtain ⟨d, rfl⟩ := Nat.exists_eq_add_of_le hi
        exact occupied_downward hp d (8 * m) ho
      rw [IsOccupied_eq_bitAt] at h0
      have hz := hzero hlt
      have hdiv : 8 * m / 8 = m := by omega
      have hmod : 8 * m % 8 = 0 := by omega
      simp [bitAt, hdiv, hmod, hz, bitOf_zero 0 (by omega)] at h0
    · have := hp.occupied_inside i ho
      have := hp.size_le
      omega
  have houtside : ∀ i, p.BUCKET_ARRAY_SIZE ≤ i → slotHit p key cmp i = none := by
    intro i hi
    apply slotHit_none_of_not_readable
    intro hr
    have := hp.occupied_inside i (hp.readable_occupied i hr)
    omega
  have hstored : (List.range' 0 (8 * m)).filterMap (slotHit p key cmp) =
      storedValues p key cmp := by
    rw [← List.range_eq_range']
    unfold storedValues
    rw [← filterMap_range_cut (slotHit p key cmp) (8 * m) (max (8 * m) p.BUCKET_ARRAY_SIZE)
        (le_max_left _ _) (fun i hi _ => hbeyond i hi),
      ← filterMap_range_cut (slotHit p key cmp) p.BUCKET_ARRAY_SIZE
        (max (8 * m) p.BUCKET_ARRAY_SIZE) (le_max_right _ _) (fun i hi _ => houtside i hi)]
  unfold GetValue
  rw [hloop, hstored]

end BucketGetValue

/-! ## What `Insert` and `Remove` do to a page -/

section BucketSteps

variable {K V : Type}

theorem IsFull_loop_false (p : HashTableBucketPage K V) :
    ∀ (n i : Nat), IsFull.loop p n i = some false →
      ∃ t, t < n ∧ IsReadable p (i + t) = some false := by
  intro n
  induction n with
  | zero => intro i h; simp [IsFull.loop] at h
  | succ n ih =>
    intro i h
    unfold IsFull.loop at h
    cases hx : IsReadable p i with
    | none => simp [hx] at h
    | some x =>
      cases x with
      | false => exact ⟨0, by omega, by simpa using hx⟩
      | true =>
        simp only [hx] at h
        obtain ⟨t, ht, hr⟩ := ih (i + 1) h
        exact ⟨t + 1, by omega, by rwa [show i + (t + 1) = i + 1 + t by omega]⟩

theorem IsFull_loop_true (p : HashTableBucketPage K V) :
    ∀ (n i : Nat), IsFull.loop p n i = some true →
      ∀ t, t < n → IsReadable p (i + t) = some true := by
  intro n
  induction n with
  | zero => intro i _ t ht; omega
  | succ n ih =>
    intro i h t ht
    unfold IsFull.loop at h
    cases hx : IsReadable p i with
    | none => simp [hx] at h
    | some x =>
      cases x with
      | false => simp [hx] at h
      | true =>
        simp only [hx] at h
        cases t with
        | zero => simpa using hx
        | succ t =>
          have := ih (i + 1) h t (by omega)
          rwa [show i + (t + 1) = i + 1 + t by omega]

theorem IsFull_false {p : HashTableBucketPage K V} (h : IsFull p = some false) :
    ∃ i, i < p.BUCKET_ARRAY_SIZE ∧ IsReadable p i = some false := by
  obtain ⟨t, ht, hr⟩ := IsFull_loop_false p _ 0 h
  exact ⟨t, ht, by simpa using hr⟩

theorem IsFull_true {p : HashTableBucketPage K V} (h : IsFull p = some true) :
    ∀ i, i < p.BUCKET_ARRAY_SIZE → IsReadable p i = some true := by
  intro i hi
  simpa using IsFull_loop_true p _ 0 h i hi

/-- What a successful `Insert` does to a page that satisfies the invariant:
the pair goes into the first slot that is not readable, which lies inside
the page, and the readable and occupied bits of that slot are set. -/
theorem Insert_effect [DecidableEq V] {p q : HashTableBucketPage K V} (hp : BucketInv p)
    (key : K) (value : V) (cmp : K → K → Int)
    (h : Insert p key value cmp = some (true, q)) :
    ∃ index, index < p.BUCKET_ARRAY_SIZE ∧ value ∉ storedValues p key cmp ∧
      IsReadable p index = some false ∧ (∀ i, i < index → IsReadable p i = some true) ∧
      q.BUCKET_ARRAY_SIZE = p.BUCKET_ARRAY_SIZE ∧
      q.array_ = (fun i => if i = index then (key, value) else p.array_ i) ∧
      q.occupied_.length = p.occupied_.length ∧ q.readable_.length = p.readable_.length ∧
      (∀ b ∈ q.occupied_, b < 256) ∧ (∀ b ∈ q.readable_, b < 256) ∧
      (∀ i, IsReadable q i = (IsReadable p i).map (fun x => if i = index then true else x)) ∧
      (∀ i, IsOccupied q i = (IsOccupied p i).map (fun x => if i = index then true else x)) := by
  unfold Insert at h
  rw [GetValue_eq_of_inv hp] at h
  simp only [List.nil_append] at h
  by_cases hv : value ∈ storedValues p key cmp
  · simp [hv] at h
  rw [if_neg hv] at h
  cases hf : Insert.findByte p.readable_ 0 with
  | none => simp [hf] at h
  | some kt =>
    obtain ⟨k, temp⟩ := kt
    simp only [hf] at h
    obtain ⟨hfree, hbelow⟩ := findByte_first_free p.readable_ hp.readable_byte k temp hf
    by_cases hidx : k * 8 + Insert.findBit temp 8 0 < p.BUCKET_ARRAY_SIZE
    · rw [if_pos hidx] at h
      cases h1 : SetReadable ({ p with array_ := fun i =>
          if i = k * 8 + Insert.findBit temp 8 0 then (key, value) else p.array_ i } :
            HashTableBucketPage K V) (k * 8 + Insert.findBit temp 8 0) with
      | none => simp [h1] at h
      | some p2 =>
        simp only [h1] at h
        cases h2 : SetOccupied p2 (k * 8 + Insert.findBit temp 8 0) with
        | none => simp [h2] at h
        | some p3 =>
          simp only [h2, Option.some.injEq, Prod.mk.injEq, true_and] at h
          subst h
          obtain ⟨b1, hb1, rfl⟩ := SetReadable_some h1
          obtain ⟨b2, hb2, rfl⟩ := SetOccupied_some h2
          simp only at hb1 hb2
          refine ⟨k * 8 + Insert.findBit temp 8 0, hidx, hv, ?_, ?_, rfl, rfl, by simp, by simp,
            ?_, ?_, ?_, ?_⟩
          · rw [IsReadable_eq_bitAt]; exact hfree
          · intro i hi; rw [IsReadable_eq_bitAt]; exact hbelow i hi
          · exact bytes_set_lt _ _ _ hp.occupied_byte (Nat.mod_lt _ (by omega))
          · exact bytes_set_lt _ _ _ hp.readable_byte (Nat.mod_lt _ (by omega))
          · intro i
            rw [IsReadable_eq_bitAt, IsReadable_eq_bitAt]
            exact bitAt_set_bit p.readable_ _ i b1 hb1
              (hp.readable_byte b1 (mem_of_getElem_some hb1))
          · intro i
            rw [IsOccupied_eq_bitAt, IsOccupied_eq_bitAt]
            exact bitAt_set_bit p.occupied_ _ i b2 hb2
              (hp.occupied_byte b2 (mem_of_getElem_some hb2))
    · rw [if_neg hidx] at h
      cases h

theorem Insert_false [DecidableEq V] {p q : HashTableBucketPage K V} (key : K) (value : V)
    (cmp : K → K → Int) (h : Insert p key value cmp = some (false, q)) : q = p := by
  unfold Insert at h
  cases hg : GetValue p key cmp [] with
  | none => simp [hg] at h
  | some r =>
    obtain ⟨f, res⟩ := r
    simp only [hg] at h
    by_cases hv : value ∈ res
    · rw [if_pos hv] at h
      simp only [Option.some.injEq, Prod.mk.injEq, true_and] at h
      exact h.symm
    · rw [if_neg hv] at h
      cases hf : Insert.findByte p.readable_ 0 with
      | none => simp [hf] at h
      | some kt =>
        simp only [hf] at h
        split at h
        · split at h
          · cases h
          · split at h
            · cases h
            · simp at h
        · cases h

/-- On a page that satisfies the invariant and is not full, `Insert` of a
value that is not stored under the key is defined and returns true. -/
theorem Insert_defined [DecidableEq V] {p : HashTableBucketPage K V} (hp : BucketInv p)
    (key : K) (value : V) (cmp : K → K → Int) (hfull : IsFull p = some false)
    (hv : value ∉ storedValues p key cmp) :
    ∃ q, Insert p key value cmp = some (true, q) := by
  obtain ⟨i0, hi0, hr0⟩ := IsFull_false hfull
  rw [IsReadable_eq_bitAt] at hr0
  unfold Insert
  rw [GetValue_eq_of_inv hp]
  simp only [List.nil_append, if_neg hv]
  cases hf : Insert.findByte p.readable_ 0 with
  | none =>
    exfalso
    have hall := findByte_none p.readable_ 0 hf
    have hlt := lt_of_bitAt_some hr0
    have hk : i0 / 8 < p.readable_.length := by omega
    have hb := hall _ (List.getElem_mem hk)
    simp [bitAt, List.getElem?_eq_getElem hk, hb,
      bitOf_full_byte (i0 % 8) (Nat.mod_lt _ (by omega))] at hr0
  | some kt =>
    obtain ⟨k, temp⟩ := kt
    obtain ⟨hfree, hbelow⟩ := findByte_first_free p.readable_ hp.readable_byte k temp hf
    have hle : k * 8 + Insert.findBit temp 8 0 ≤ i0 := by
      by_contra hc
      have := hbelow i0 (by omega)
      rw [this] at hr0
      cases hr0
    have hin := lt_of_bitAt_some hfree
    have hk : (k * 8 + Insert.findBit temp 8 0) / 8 < p.readable_.length := by omega
    have hk2 : (k * 8 + Insert.findBit temp 8 0) / 8 < p.occupied_.length := by
      rw [← hp.readable_len]; exact hk
    simp only [if_pos (lt_of_le_of_lt hle hi0), SetReadable, SetOccupied, shiftRight_three,
      and_seven, List.getElem?_eq_getElem hk, List.getElem?_eq_getElem hk2]
    exact ⟨_, rfl⟩

theorem Remove_scan_result (p : HashTableBucketPage K V) (key : K) (value : V)
    [DecidableEq V] (cmp : K → K → Int) :
    ∀ (n i : Nat) (q : HashTableBucketPage K V),
      Remove.scan p key value cmp n i = some (some q) →
        ∃ idx, UnSetReadable p idx = some q := by
  intro n
  induction n with
  | zero => intro i q h; simp [Remove.scan] at h
  | succ n ih =>
    intro i q h
    unfold Remove.scan at h
    split at h
    · cases hx : IsReadable p i with
      | none => simp [hx] at h
      | some x =>
        cases x with
        | false => simp only [hx] at h; exact ih (i + 1) q h
        | true =>
          simp only [hx] at h
          cases hu : UnSetReadable p i with
          | none => simp [hu] at h
          | some r =>
            simp only [hu, Option.some.injEq] at h
            exact ⟨i, by rw [hu, h]⟩
    · exact ih (i + 1) q h

theorem Remove_loop_result (p : HashTableBucketPage K V) (key : K) (value : V)
    [DecidableEq V] (cmp : K → K → Int) :
    ∀ (bytes : List Nat) (i j : Nat) (r : Bool) (q : HashTableBucketPage K V),
      Remove.loop p key value cmp bytes i j = some (r, q) →
        (r = false ∧ q = p) ∨ (r = true ∧ ∃ idx, UnSetReadable p idx = some q) := by
  intro bytes
  induction bytes with
  | nil => intro i j r q h; simp [Remove.loop] at h
  | cons b bs ih =>
    intro i j r q h
    unfold Remove.loop at h
    by_cases hb : b ≠ 0
    · rw [if_pos hb] at h
      cases hs : Remove.scan p key value cmp (j - i) i with
      | none => simp [hs] at h
      | some o =>
        cases o with
        | none => simp only [hs] at h; exact ih _ _ r q h
        | some q2 =>
          simp only [hs, Option.some.injEq, Prod.mk.injEq] at h
          obtain ⟨hr, hq⟩ := h
          subst hr; subst hq
          exact Or.inr ⟨rfl, Remove_scan_result p key value cmp _ _ _ hs⟩
    · rw [if_neg hb] at h
      simp only [Option.some.injEq, Prod.mk.injEq] at h
      exact Or.inl ⟨h.1.symm, h.2.symm⟩

end BucketSteps

/-! ## The invariant is kept by every operation -/

section BucketInvariant

variable {K V : Type}

theorem mem_storedValues (p : HashTableBucketPage K V) (key : K) (cmp : K → K → Int)
    (value : V) :
    value ∈ storedValues p key cmp ↔
      ∃ i, i < p.BUCKET_ARRAY_SIZE ∧ cmp key (p.array_ i).1 = 0 ∧
        IsReadable p i = some true ∧ (p.array_ i).2 = value := by
  unfold storedValues
  rw [List.mem_filterMap]
  constructor
  · rintro ⟨i, hi, hs⟩
    unfold slotHit at hs
    split at hs
    · rename_i hc
      simp only [Option.some.injEq] at hs
      exact ⟨i, List.mem_range.mp hi, hc.1, hc.2, hs⟩
    · cases hs
  · rintro ⟨i, hi, hc, hr, hv⟩
    exact ⟨i, List.mem_range.mpr hi, by simp [slotHit, hc, hr, hv]⟩

theorem map_set_eq_true {o : Option Bool} {i index : Nat}
    (h : o.map (fun x => if i = index then true else x) = some true) :
    (i = index ∧ ∃ x, o = some x) ∨ (i ≠ index ∧ o = some true) := by
  cases o with
  | none => simp at h
  | some x =>
    by_cases hi : i = index
    · exact Or.inl ⟨hi, x, rfl⟩
    · simp only [Option.map_some', hi, if_false, Option.some.injEq] at h
      exact Or.inr ⟨hi, by rw [h]⟩

theorem Insert_inv [DecidableEq V] {p q : HashTableBucketPage K V} (hp : BucketInv p)
    (key : K) (value : V) (cmp : K → K → Int) (hcmp : ∀ k, cmp k k = 0) (r : Bool)
    (h : Insert p key value cmp = some (r, q)) : BucketInv q := by
  cases r with
  | false => rw [Insert_false key value cmp h]; exact hp
  | true =>
    obtain ⟨index, hidx, hv, hfree, hbelow, hB, harr, holen, hrlen, hobyte, hrbyte, hR, hO⟩ :=
      Insert_effect hp key value cmp h
    have hfree2 := hfree
    rw [IsReadable_eq_bitAt] at hfree2
    have hin : index < 8 * p.occupied_.length := by
      rw [← hp.readable_len]; exact lt_of_bitAt_some hfree2
    obtain ⟨xo, hxo⟩ := bitAt_isSome p.occupied_ index hin
    rw [← IsOccupied_eq_bitAt] at hxo
    have hOidx : IsOccupied q index = some true := by rw [hO, hxo]; simp
    have hOkeep : ∀ i, IsOccupied p i = some true → IsOccupied q i = some true := by
      intro i hi
      rw [hO, hi]
      by_cases hc : i = index <;> simp [hc]
    constructor
    · rw [holen]; exact hp.bitmap_pos
    · rw [hrlen, holen]; exact hp.readable_len
    · rw [hB, holen]; exact hp.size_le
    · exact hobyte
    · exact hrbyte
    · intro i hi
      rw [hR] at hi
      rcases map_set_eq_true hi with ⟨hc, _⟩ | ⟨_, hc⟩
      · rw [hc]; exact hOidx
      · exact hOkeep i (hp.readable_occupied i hc)
    · intro i hi
      rw [hO] at hi
      rcases map_set_eq_true hi with ⟨hc, _⟩ | ⟨_, hc⟩
      · exact hOkeep i (hp.readable_occupied i (hbelow i (by omega)))
      · exact hOkeep i (hp.occupied_closed i hc)
    · intro i hi
      rw [hO] at hi
      rw [hB]
      rcases map_set_eq_true hi with ⟨hc, _⟩ | ⟨_, hc⟩
      · rw [hc]; exact hidx
      · exact hp.occupied_inside i hc
    · have hnew : ∀ j, j ≠ index → IsReadable p j = some true →
          p.array_ j ≠ (key, value) := by
        intro j _ hj heq
        apply hv
        rw [mem_storedValues]
        refine ⟨j, hp.occupied_inside j (hp.readable_occupied j hj), ?_, hj, ?_⟩
        · rw [heq]; exact hcmp key
        · rw [heq]
      intro i j hi hj hij
      rw [hR] at hi hj
      rw [harr] at hij
      rcases map_set_eq_true hi with ⟨hci, _⟩ | ⟨hci, hri⟩ <;>
        rcases map_set_eq_true hj with ⟨hcj, _⟩ | ⟨hcj, hrj⟩
      · rw [hci, hcj]
      · simp only [hci, hcj, if_true, if_false] at hij
        exact absurd hij.symm (hnew j hcj hrj)
      · simp only [hci, hcj, if_true, if_false] at hij
        exact absurd hij (hnew i hci hri)
      · simp only [hci, hcj, if_false] at hij
        exact hp.no_duplicate i j hri hrj hij

theorem Remove_inv [DecidableEq V] {p q : HashTableBucketPage K V} (hp : BucketInv p)
    (key : K) (value : V) (cmp : K → K → Int) (r : Bool)
    (h : Remove p key value cmp = some (r, q)) : BucketInv q := by
  rcases Remove_loop_result p key value cmp _ _ _ r q h with ⟨_, hq⟩ | ⟨_, idx, hq⟩
  · rw [hq]; exact hp
  · exact UnSetReadable_inv hq hp

theorem bitAt_replicate_zero (n i : Nat) : bitAt (List.replicate n 0) i ≠ some true := by
  unfold bitAt
  by_cases hi : i / 8 < n
  · rw [List.getElem?_eq_getElem (by simpa using hi)]
    simp [bitOf_zero (i % 8) (Nat.mod_lt _ (by omega))]
  · rw [List.getElem?_eq_none (by simpa using hi)]
    simp

theorem zeroPage_inv (size : Nat) (mem : Nat → K × V) : BucketInv (zeroPage size mem) := by
  have hr : ∀ i, IsReadable (zeroPage size mem) i ≠ some true := by
    intro i; rw [IsReadable_eq_bitAt]; exact bitAt_replicate_zero _ i
  have ho : ∀ i, IsOccupied (zeroPage size mem) i ≠ some true := by
    intro i; rw [IsOccupied_eq_bitAt]; exact bitAt_replicate_zero _ i
  constructor
  · simp [zeroPage]
  · simp [zeroPage]
  · simp only [zeroPage, List.length_replicate]; omega
  · intro b hb
    simp only [zeroPage] at hb
    rw [List.eq_of_mem_replicate hb]; omega
  · intro b hb
    simp only [zeroPage] at hb
    rw [List.eq_of_mem_replicate hb]; omega
  · intro i hi; exact absurd hi (hr i)
  · intro i hi; exact absurd hi (ho (i + 1))
  · intro i hi; exact absurd hi (ho i)
  · intro i j hi; exact absurd hi (hr i)

theorem BucketOp_run_inv [DecidableEq V] (cmp : K → K → Int) (hcmp : ∀ k, cmp k k = 0)
    {p q : HashTableBucketPage K V} (op : BucketOp K V) (hp : BucketInv p)
    (h : op.run cmp p = some q) : BucketInv q := by
  cases op with
  | insert key value =>
    simp only [BucketOp.run, Option.map_eq_some'] at h
    obtain ⟨⟨r, q2⟩, hq, rfl⟩ := h
    exact Insert_inv hp key value cmp hcmp r hq
  | remove key value =>
    simp only [BucketOp.run, Option.map_eq_some'] at h
    obtain ⟨⟨r, q2⟩, hq, rfl⟩ := h
    exact Remove_inv hp key value cmp r hq
  | removeAt bucket_idx => exact UnSetReadable_inv h hp

theorem runOps_inv [DecidableEq V] (cmp : K → K → Int) (hcmp : ∀ k, cmp k k = 0)
    (ops : List (BucketOp K V)) :
    ∀ (p q : HashTableBucketPage K V), BucketInv p → runOps cmp p ops = some q →
      BucketInv q := by
  induction ops with
  | nil =>
    intro p q hp h
    simp only [runOps, Option.some.injEq] at h
    rw [← h]; exact hp
  | cons op ops ih =>
    intro p q hp h
    unfold runOps at h
    cases hr : op.run cmp p with
    | none => simp [hr] at h
    | some p2 =>
      simp only [hr] at h
      exact ih p2 q (BucketOp_run_inv cmp hcmp op hp hr) h

theorem BucketReachable_inv [DecidableEq V] (cmp : K → K → Int) (hcmp : ∀ k, cmp k k = 0)
    {p : HashTableBucketPage K V} (h : BucketReachable cmp p) : BucketInv p := by
  obtain ⟨size, mem, ops, hrun⟩ := h
  exact runOps_inv cmp hcmp ops _ p (zeroPage_inv size mem) hrun

theorem occupied_initial_segment {p : HashTableBucketPage K V} (hp : BucketInv p) :
    ∃ n, n ≤ p.BUCKET_ARRAY_SIZE ∧ ∀ i, IsOccupied p i = some true ↔ i < n := by
  have hex : ∃ m, IsOccupied p m ≠ some true :=
    ⟨p.BUCKET_ARRAY_SIZE, fun h => by have := hp.occupied_inside _ h; omega⟩
  refine ⟨Nat.find hex, Nat.find_min' hex (fun h => by
    have := hp.occupied_inside _ h; omega), ?_⟩
  intro i
  constructor
  · intro hi
    by_contra hc
    obtain ⟨d, hd⟩ := Nat.exists_eq_add_of_le (Nat.le_of_not_lt hc)
    rw [hd] at hi
    exact Nat.find_spec hex (occupied_downward hp d _ hi)
  · intro hi
    have := Nat.find_min hex hi
    by_contra hc
    exact this hc

end BucketInvariant

/-! ## Insert on a full page, Remove without a bound -/

section BucketDefects

variable {K V : Type}

theorem Insert_false_stored [DecidableEq V] {p q : HashTableBucketPage K V}
    (hp : BucketInv p) (key : K) (value : V) (cmp : K → K → Int)
    (h : Insert p key value cmp = some (false, q)) : value ∈ storedValues p key cmp := by
  by_contra hv
  unfold Insert at h
  rw [GetValue_eq_of_inv hp] at h
  simp only [List.nil_append, if_neg hv] at h
  cases hf : Insert.findByte p.readable_ 0 with
  | none => simp [hf] at h
  | some kt =>
    simp only [hf] at h
    split at h
    · split at h
      · cases h
      · split at h
        · cases h
        · simp at h
    · cases h

/-- On a full page that satisfies the invariant, `Insert` of a value that is
not stored under the key is undefined: the search for a free slot leaves
`readable_` or ends at a slot outside the page. -/
theorem Insert_full_undefined [DecidableEq V] {p : HashTableBucketPage K V}
    (hp : BucketInv p) (key : K) (value : V) (cmp : K → K → Int)
    (hfull : IsFull p = some true) (hv : value ∉ storedValues p key cmp) :
    Insert p key value cmp = none := by
  cases h : Insert p key value cmp with
  | none => rfl
  | some r =>
    obtain ⟨b, q⟩ := r
    cases b with
    | false => exact absurd (Insert_false_stored hp key value cmp h) hv
    | true =>
      obtain ⟨index, hidx, _, hfree, _⟩ := Insert_effect hp key value cmp h
      rw [IsFull_true hfull index hidx] at hfree
      cases hfree

theorem Remove_scan_no_match [DecidableEq V] (p : HashTableBucketPage K V) (key : K)
    (value : V) (cmp : K → K → Int)
    (hno : ∀ i, cmp key (p.array_ i).1 = 0 → (p.array_ i).2 = value →
      IsReadable p i ≠ some true) :
    ∀ (n i : Nat), Remove.scan p key value cmp n i = none ∨
      Remove.scan p key value cmp n i = some none := by
  intro n
  induction n with
  | zero => intro i; right; simp [Remove.scan]
  | succ n ih =>
    intro i
    unfold Remove.scan
    split
    · rename_i hc
      cases hx : IsReadable p i with
      | none => left; rfl
      | some x =>
        cases x with
        | false => exact ih (i + 1)
        | true => exact absurd hx (hno i hc.1 hc.2)
    · exact ih (i + 1)

theorem Remove_loop_undefined [DecidableEq V] (p : HashTableBucketPage K V) (key : K)
    (value : V) (cmp : K → K → Int)
    (hno : ∀ i, cmp key (p.array_ i).1 = 0 → (p.array_ i).2 = value →
      IsReadable p i ≠ some true) :
    ∀ (bytes : List Nat) (i j : Nat), (∀ b ∈ bytes, b ≠ 0) →
      Remove.loop p key value cmp bytes i j = none := by
  intro bytes
  induction bytes with
  | nil => intro i j _; rfl
  | cons b bs ih =>
    intro i j hb
    unfold Remove.loop
    rw [if_pos (hb b (by simp))]
    rcases Remove_scan_no_match p key value cmp hno (j - i) i with hs | hs
    · rw [hs]
    · rw [hs]
      exact ih _ _ (fun c hc => hb c (by simp [hc]))

/-- On a page whose bitmaps have no zero byte, `Remove` of a pair that no
readable slot holds is undefined: the scan has no bound and runs through
`readable_` into the slots behind the page. -/
theorem Remove_undefined [DecidableEq V] (p : HashTableBucketPage K V) (key : K) (value : V)
    (cmp : K → K → Int)
    (hno : ∀ i, cmp key (p.array_ i).1 = 0 → (p.array_ i).2 = value →
      IsReadable p i ≠ some true)
    (hbytes : ∀ b ∈ p.occupied_ ++ p.readable_, b ≠ 0) :
    Remove p key value cmp = none :=
  Remove_loop_undefined p key value cmp hno _ 0 8 hbytes

end BucketDefects

/-! ## The claims on the bucket page -/

theorem IntComparator_self (k : Int) : IntComparator k k = 0 := by
  simp [IntComparator]

theorem filledPage_reachable_8_8 : BucketReachable IntComparator (filledPage 8 8) :=
  ⟨8, zeroSlots, insertRange 8, rfl⟩

theorem filledPage_reachable_12_12 : BucketReachable IntComparator (filledPage 12 12) :=
  ⟨12, zeroSlots, insertRange 12, rfl⟩

theorem filledPage_reachable_8_1 : BucketReachable IntComparator (filledPage 8 1) :=
  ⟨8, zeroSlots, insertRange 1, rfl⟩

theorem filledPage_reachable_12_9 : BucketReachable IntComparator (filledPage 12 9) :=
  ⟨12, zeroSlots, insertRange 9, rfl⟩

/-- C11 fails on the code: on a full page `Insert` of a pair that is not
stored does not return false, it is undefined.  With 8 slots every byte of
`readable_` is 255 and the search for a free bit walks out of `readable_`;
with 12 slots the search ends at bit 12 and the pair is written to slot 12,
outside the page. -/
theorem Insert_on_full_page_undefined :
    BucketReachable IntComparator (filledPage 8 8) ∧
    IsFull (filledPage 8 8) = some true ∧
    storedValues (filledPage 8 8) 9 IntComparator = [] ∧
    Insert (filledPage 8 8) 9 90 IntComparator = none ∧
    BucketReachable IntComparator (filledPage 12 12) ∧
    IsFull (filledPage 12 12) = some true ∧
    storedValues (filledPage 12 12) 13 IntComparator = [] ∧
    Insert.findByte (filledPage 12 12).readable_ 0 = some (1, 15) ∧
    1 * 8 + Insert.findBit 15 8 0 = 12 ∧
    Insert (filledPage 12 12) 13 130 IntComparator = none :=
  ⟨filledPage_reachable_8_8, by decide, by decide, rfl,
    filledPage_reachable_12_12, by decide, by decide, by decide, by decide, rfl⟩

/-- C12: on a reachable page that is not full, `Insert` of a pair whose
value is not stored under a key that compares equal returns true, a
following `GetValue` of the key returns true with the value among its
results, and `GetValue` of any key that compares different from the inserted
key returns what it returned before the insertion.  The comparator returns 0
on equal keys. -/
theorem Insert_GetValue_round_trip {K V : Type} [DecidableEq V] (cmp : K → K → Int)
    (hcmp : ∀ k, cmp k k = 0) (p : HashTableBucketPage K V) (hp : BucketReachable cmp p)
    (hfull : IsFull p = some false) (key : K) (value : V)
    (hnew : ∀ i, i < p.BUCKET_ARRAY_SIZE → IsReadable p i = some true →
      cmp key (p.array_ i).1 = 0 → (p.array_ i).2 ≠ value) :
    ∃ q, Insert p key value cmp = some (true, q) ∧
      (∃ vs, GetValue q key cmp [] = some (true, vs) ∧ value ∈ vs) ∧
      ∀ (key2 : K) (result : List V), cmp key2 key ≠ 0 →
        GetValue q key2 cmp result = GetValue p key2 cmp result := by
  have hinv := BucketReachable_inv cmp hcmp hp
  have hv : value ∉ storedValues p key cmp := by
    rw [mem_storedValues]
    rintro ⟨i, hi, hc, hr, hval⟩
    exact hnew i hi hr hc hval
  obtain ⟨q, hq⟩ := Insert_defined hinv key value cmp hfull hv
  have hqinv := Insert_inv hinv key value cmp hcmp true hq
  obtain ⟨index, hidx, _, hfree, _, hB, harr, _, _, _, _, hR, _⟩ :=
    Insert_effect hinv key value cmp hq
  have hRidx : IsReadable q index = some true := by rw [hR, hfree]; simp
  refine ⟨q, hq, ?_, ?_⟩
  · have hmem : value ∈ storedValues q key cmp := by
      rw [mem_storedValues]
      refine ⟨index, by rw [hB]; exact hidx, ?_, hRidx, ?_⟩
      · rw [harr]; simp [hcmp key]
      · rw [harr]; simp
    refine ⟨storedValues q key cmp, ?_, hmem⟩
    rw [GetValue_eq_of_inv hqinv]
    simp only [List.nil_append, Option.some.injEq, Prod.mk.injEq, and_true]
    cases hs : storedValues q key cmp with
    | nil => rw [hs] at hmem; simp at hmem
    | cons a l => simp
  · intro key2 result hne
    rw [GetValue_eq_of_inv hqinv, GetValue_eq_of_inv hinv]
    have hsame : storedValues q key2 cmp = storedValues p key2 cmp := by
      unfold storedValues
      rw [hB]
      apply List.filterMap_congr
      intro i _
      unfold slotHit
      by_cases hi : i = index
      · subst hi
        have h1 : ¬(cmp key2 (q.array_ i).1 = 0 ∧ IsReadable q i = some true) := by
          rw [harr]; simp [hne]
        have h2 : ¬(cmp key2 (p.array_ i).1 = 0 ∧ IsReadable p i = some true) := by
          rw [hfree]; simp
        rw [if_neg h1, if_neg h2]
      · have ha : q.array_ i = p.array_ i := by rw [harr]; simp [hi]
        have hr : IsReadable q i = IsReadable p i := by
          rw [hR]
          cases IsReadable p i <;> simp [hi]
        rw [ha, hr]
    rw [hsame]

theorem Insert_GetValue_round_trip_witness :
    (∀ k, IntComparator k k = 0) ∧ BucketReachable IntComparator (filledPage 12 9) ∧
    IsFull (filledPage 12 9) = some false ∧
    (∀ i, i < (filledPage 12 9).BUCKET_ARRAY_SIZE → IsReadable (filledPage 12 9) i = some true →
      IntComparator 3 ((filledPage 12 9).array_ i).1 = 0 →
      ((filledPage 12 9).array_ i).2 ≠ 31) ∧
    ∃ q, Insert (filledPage 12 9) 3 31 IntComparator = some (true, q) ∧
      (∃ vs, GetValue q 3 IntComparator [] = some (true, vs) ∧ 31 ∈ vs) ∧
      ∀ (key2 : Int) (result : List Int), IntComparator key2 3 ≠ 0 →
        GetValue q key2 IntComparator result =
          GetValue (filledPage 12 9) key2 IntComparator result :=
  ⟨IntComparator_self, filledPage_reachable_12_9, by decide, by decide,
    Insert_GetValue_round_trip IntComparator IntComparator_self (filledPage 12 9)
      filledPage_reachable_12_9 (by decide) 3 31 (by decide)⟩

/-- C13 fails on the code: the scan of `Remove` has no bound.  The page of 8
slots that holds the one pair (1, 10) is reachable and its occupied bitmap
has no zero byte; no readable slot holds the pair (6, 60), yet `Remove`
does not return false: after the slots of the page the scan takes the first
byte of `readable_` for a byte of `occupied_`, reads the slots 8 to 15 behind
the page and walks out of the bitmaps.  The same happens on the page of 12
slots with 9 pairs, and on the full pages. -/
theorem Remove_scan_leaves_page :
    BucketReachable IntComparator (filledPage 8 1) ∧
    (filledPage 8 1).occupied_ = [1] ∧ (filledPage 8 1).readable_ = [1] ∧
    (∀ i, i < 8 → (filledPage 8 1).array_ i ≠ (6, 60)) ∧
    Remove (filledPage 8 1) 6 60 IntComparator = none ∧
    BucketReachable IntComparator (filledPage 12 9) ∧
    (filledPage 12 9).occupied_ = [255, 1] ∧
    Remove (filledPage 12 9) 6 61 IntComparator = none ∧
    Remove (filledPage 8 8) 9 90 IntComparator = none :=
  ⟨filledPage_reachable_8_1, by decide, by decide, by decide, rfl,
    filledPage_reachable_12_9, by decide, rfl, rfl⟩

/-- C14 fails on the code: `NumReadable` returns 0 for every page.  On the
page with the one readable slot 0 it is 0 although `IsEmpty` is false, and on
the full page of 8 slots it is 0 instead of 8. -/
theorem NumReadable_returns_zero :
    IsReadable (filledPage 8 1) 0 = some true ∧ IsEmpty (filledPage 8 1) = some false ∧
    NumReadable (filledPage 8 1) = 0 ∧
    ((List.range (filledPage 8 1).BUCKET_ARRAY_SIZE).filter
      (fun i => IsReadable (filledPage 8 1) i = some true)).length = 1 ∧
    IsFull (filledPage 8 8) = some true ∧ NumReadable (filledPage 8 8) = 0 ∧
    (filledPage 8 8).BUCKET_ARRAY_SIZE = 8 :=
  ⟨by decide, by decide, rfl, by decide, by decide, rfl, rfl⟩

/-- C15 fails on the code: the queue holds one request per transaction and
the request of the ABORTED transaction 3 is the last one.  The loop erases
it at position 2, the queue then has length 2, and `++iter` moves the
position to 3, past the end; the loop test `iter != end()` still holds and
the next dereference is outside the queue.  With the request first or in
the middle the loop ends inside the bounds. -/
theorem IsItAborted_loop_passes_end :
    OnePerTxn threeRequests ∧
    (threeRequests.eraseIdx 2).length = 2 ∧
    IsItAborted.loop 3 (2 + 1) (threeRequests.eraseIdx 2) = none ∧
    IsItAborted.loop 3 0 threeRequests = none ∧
    IsItAborted.loop 1 0 threeRequests = some (threeRequests.eraseIdx 0) ∧
    IsItAborted.loop 2 0 threeRequests = some (threeRequests.eraseIdx 1) := by
  refine ⟨by decide, by decide, ?_, ?_, ?_, ?_⟩ <;>
    simp [threeRequests, IsItAborted.loop]

/-- C16: in every page reachable from a page with zero bitmaps by Insert,
Remove and RemoveAt (each with defined behaviour), no two readable slots
hold the same pair, every readable slot is marked occupied, and the
occupied slots are exactly the slots below some `n` that is at most
`BUCKET_ARRAY_SIZE`.  The comparator returns 0 on equal keys. -/
theorem bucket_page_invariant {K V : Type} [DecidableEq V] (cmp : K → K → Int)
    (hcmp : ∀ k, cmp k k = 0) (p : HashTableBucketPage K V) (hp : BucketReachable cmp p) :
    (∀ i j, IsReadable p i = some true → IsReadable p j = some true →
      p.array_ i = p.array_ j → i = j) ∧
    (∀ i, IsReadable p i = some true → IsOccupied p i = some true) ∧
    ∃ n, n ≤ p.BUCKET_ARRAY_SIZE ∧ ∀ i, IsOccupied p i = some true ↔ i < n :=
  ⟨(BucketReachable_inv cmp hcmp hp).no_duplicate,
    (BucketReachable_inv cmp hcmp hp).readable_occupied,
    occupied_initial_segment (BucketReachable_inv cmp hcmp hp)⟩

theorem bucket_page_invariant_witness :
    (∀ k, IntComparator k k = 0) ∧ BucketReachable IntComparator (filledPage 12 9) ∧
    (filledPage 12 9).occupied_ = [255, 1] ∧ (filledPage 12 9).readable_ = [255, 1] ∧
    ((∀ i j, IsReadable (filledPage 12 9) i = some true →
        IsReadable (filledPage 12 9) j = some true →
        (filledPage 12 9).array_ i = (filledPage 12 9).array_ j → i = j) ∧
      (∀ i, IsReadable (filledPage 12 9) i = some true →
        IsOccupied (filledPage 12 9) i = some true) ∧
      ∃ n, n ≤ (filledPage 12 9).BUCKET_ARRAY_SIZE ∧
        ∀ i, IsOccupied (filledPage 12 9) i = some true ↔ i < n) :=
  ⟨IntComparator_self, filledPage_reachable_12_9, by decide, by decide,
    bucket_page_invariant IntComparator IntComparator_self (filledPage 12 9)
      filledPage_reachable_12_9⟩

end bustub
